import Mathlib

/-!
# zed-ext-install: a verification development

Shallow embedding of the Go sources (`index.go`, `installer.go`,
`downloader.go`, `registry.go`, `main.go`) and theorems about them.

Conventions of the embedding
* Go `string` is `String`; path functions work on the character list.
* A Go `map[string]V` is an association list `GoMap V`; `mapSet` and
  `mapDelete` act on every entry carrying the key, so the theorems do not
  depend on the order of the entries and hold in particular for every list
  with pairwise distinct keys (the lists that are Go maps).
* The outside world (file system, network, TOML decoder) is an explicit
  argument: a record of the results the calls return.
-/

namespace ZedExt

/-! ## Go maps with string keys -/

/-- A Go `map[string]V`: the list of its key/value entries. -/
abbrev GoMap (V : Type) := List (String × V)

/-- Map lookup `m[k]` with the comma-ok form: `none` when the key is absent. -/
def mapGet {V : Type} (m : GoMap V) (k : String) : Option V :=
  match m with
  | [] => none
  | p :: rest => if p.1 = k then some p.2 else mapGet rest k

/-- Builtin `delete(m, k)`. -/
def mapDelete {V : Type} (m : GoMap V) (k : String) : GoMap V :=
  m.filter (fun p => decide (p.1 ≠ k))

/-- Assignment `m[k] = v`: any entry with the key is replaced. -/
def mapSet {V : Type} (m : GoMap V) (k : String) (v : V) : GoMap V :=
  mapDelete m k ++ [(k, v)]

/-- The keys of a map. -/
def mapKeys {V : Type} (m : GoMap V) : List String := m.map (fun p => p.1)

/-- A list of entries is a Go map when no key occurs twice. -/
def IsGoMap {V : Type} (m : GoMap V) : Prop := (mapKeys m).Nodup

instance {V : Type} (m : GoMap V) : Decidable (IsGoMap m) := by
  unfold IsGoMap
  infer_instance

/-! ## index.go: data model -/

/-- Untyped JSON/TOML value that the tool never interprets (`interface{}`). -/
abbrev RawValue := String

/-- Go struct `ManifestLib`. -/
structure ManifestLib where
  Kind : String
  Version : String
  deriving DecidableEq, Repr

/-- Go struct `ExtensionManifest`; a nil slice is `none`. -/
structure ExtensionManifest where
  ID : String
  Name : String
  Version : String
  Description : String
  Authors : Option (List String)
  Repository : String
  Lib : Option ManifestLib
  Themes : Option (List String)
  IconThemes : Option (List String)
  Languages : Option (List String)
  Grammars : GoMap RawValue
  deriving DecidableEq, Repr

/-- Go struct `ExtensionIndexEntry`. -/
structure ExtensionIndexEntry where
  Manifest : ExtensionManifest
  Dev : Bool
  deriving DecidableEq, Repr

/-- Go struct `ExtensionIndexThemeEntry`. -/
structure ExtensionIndexThemeEntry where
  Extension : String
  Path : String
  deriving DecidableEq, Repr

/-- Go struct `ExtensionIndexLangEntry`. -/
structure ExtensionIndexLangEntry where
  Extension : String
  Path : String
  deriving DecidableEq, Repr

/-- Go struct `ExtensionIndex`. -/
structure ExtensionIndex where
  Extensions : GoMap ExtensionIndexEntry
  Themes : GoMap ExtensionIndexThemeEntry
  IconThemes : GoMap RawValue
  Languages : GoMap ExtensionIndexLangEntry
  deriving DecidableEq, Repr

/-- Function `newEmptyIndex`: four empty maps. -/
def newEmptyIndex : ExtensionIndex :=
  { Extensions := [], Themes := [], IconThemes := [], Languages := [] }

/-! ## index.go: RemoveFromIndex -/

/-- The loop `for name, entry := range m { if entry.Extension == extID { delete(m, name) } }`:
the entries of `m` are visited one by one and the key of each entry owned by
`extID` is deleted from the map. -/
def rangeDeleteOwned {V : Type} (owner : V → String) (extID : String) (m : GoMap V) : GoMap V :=
  m.foldl (fun acc p => if owner p.2 = extID then mapDelete acc p.1 else acc) m

/-- Function `RemoveFromIndex` (index.go, 194-208). -/
def RemoveFromIndex (extID : String) (idx : ExtensionIndex) : ExtensionIndex :=
  let extensions := mapDelete idx.Extensions extID
  let themes := rangeDeleteOwned ExtensionIndexThemeEntry.Extension extID idx.Themes
  let languages := rangeDeleteOwned ExtensionIndexLangEntry.Extension extID idx.Languages
  { idx with Extensions := extensions, Themes := themes, Languages := languages }

/-! ## Go standard library: `strings` and `path/filepath` (Unix) -/

/-- The separator-free pieces of a path: the text between consecutive `/`. -/
def splitSlash : List Char → List (List Char)
  | [] => [[]]
  | c :: cs =>
    if c = '/' then [] :: splitSlash cs
    else
      match splitSlash cs with
      | [] => [[c]]
      | s :: ss => (c :: s) :: ss

/-- The path element `..`. -/
def dotdot : List Char := ['.', '.']

/-- One path element processed by `filepath.Clean`. The output elements are kept
as a stack, last element first. Empty and `.` elements are dropped; `..`
removes the last real element when there is one, is kept when the path is
not rooted, and is dropped at the root; any other element is appended. -/
def cleanStep (rooted : Bool) (stack : List (List Char)) (seg : List Char) :
    List (List Char) :=
  if seg = [] ∨ seg = ['.'] then stack
  else if seg = dotdot then
    match stack with
    | top :: rest =>
      if top ≠ dotdot then rest
      else if rooted then stack else seg :: stack
    | [] => if rooted then [] else [seg]
  else seg :: stack

/-- The elements that `filepath.Clean` keeps, in path order. -/
def cleanElems (cs : List Char) : List (List Char) :=
  ((splitSlash cs).foldl (cleanStep (cs.head? = some '/')) []).reverse

/-- The path with the given elements, rooted or not; `.` when it is empty. -/
def renderPath (rooted : Bool) (elems : List (List Char)) : List Char :=
  let out := (if rooted then ['/'] else []) ++ ['/'].intercalate elems
  if out = [] then ['.'] else out

/-- Go `filepath.Clean` on the characters of a path. -/
def cleanChars (cs : List Char) : List Char :=
  renderPath (decide (cs.head? = some '/')) (cleanElems cs)

/-- Go `filepath.Clean`. -/
def filepathClean (path : String) : String := String.mk (cleanChars path.data)

/-- Go `filepath.Join`: the elements from the first non-empty one on are joined
with `/` and the result is cleaned; the result is empty when every element is. -/
def filepathJoin (elem : List String) : String :=
  match elem.dropWhile (fun e => decide (e = "")) with
  | [] => ""
  | rest => String.mk (cleanChars (['/'].intercalate (rest.map String.data)))

/-- The characters after the last `/` (all of them when there is none). -/
def lastElement (cs : List Char) : List Char :=
  (cs.reverse.takeWhile (fun c => decide (c ≠ '/'))).reverse

/-- A path without its trailing slashes. -/
def stripTrailingSlashes (cs : List Char) : List Char :=
  (cs.reverse.dropWhile (fun c => decide (c = '/'))).reverse

/-- Go `filepath.Base` on characters. -/
def baseChars (cs : List Char) : List Char :=
  if cs = [] then ['.']
  else
    let e := lastElement (stripTrailingSlashes cs)
    if e = [] then ['/'] else e

/-- Go `filepath.Base`. -/
def filepathBase (path : String) : String := String.mk (baseChars path.data)

/-- Go `filepath.Ext` on characters: the suffix beginning at the final dot of the
characters after the last `/`; empty when there is no dot there. -/
def extChars (cs : List Char) : List Char :=
  let e := lastElement cs
  if '.' ∈ e then '.' :: (e.reverse.takeWhile (fun c => decide (c ≠ '.'))).reverse
  else []

/-- Go `filepath.Dir`: the path up to its last `/`, cleaned. -/
def filepathDir (path : String) : String :=
  String.mk (cleanChars (path.data.reverse.dropWhile (fun c => decide (c ≠ '/'))).reverse)

/-- Go `filepath.Ext`. -/
def filepathExt (path : String) : String := String.mk (extChars path.data)

/-- Go `strings.HasSuffix`. -/
def stringsHasSuffix (s suffix : String) : Bool := suffix.data.isSuffixOf s.data

/-- Go `strings.TrimSuffix`. -/
def stringsTrimSuffix (s suffix : String) : String :=
  if stringsHasSuffix s suffix then
    String.mk (s.data.take (s.data.length - suffix.data.length))
  else s

/-- Go `strings.Contains`. -/
def stringsContains (s substr : String) : Bool := decide (substr.data <:+: s.data)

/-! ## paths.go -/

/-- Go struct `ZedPaths`. -/
structure ZedPaths where
  Base : String
  Installed : String
  Index : String
  deriving DecidableEq, Repr

/-! ## index.go: UpdateIndexForExtension -/

/-- Entry returned by `os.ReadDir`. -/
structure DirEntry where
  Name : String
  IsDir : Bool
  deriving DecidableEq, Repr

/-- What `index.go` sees of the outside world: the result of each call on the
file system and of the TOML decoder. `none` stands for a returned error. -/
structure IndexWorld where
  /-- Call `os.ReadFile(path)`. -/
  readFile : String → Option String
  /-- Call `toml.Unmarshal(data, &manifest)` for an `ExtensionManifest`. -/
  decodeManifest : String → Option ExtensionManifest
  /-- Call `toml.Unmarshal(data, &config)` for the struct with the one field
  `Name`; the decoded name (empty when the document has no `name`). -/
  decodeLanguageConfig : String → Option String
  /-- Call `os.ReadDir(path)`. -/
  readDir : String → Option (List DirEntry)

/-- Errors returned by `UpdateIndexForExtension`. -/
inductive IndexError where
  | readExtensionToml
  | parseExtensionToml
  deriving DecidableEq, Repr

/-- Function `readLanguageName` (index.go, 210-222). -/
def readLanguageName (w : IndexWorld) (configPath : String) : String :=
  match w.readFile configPath with
  | none => ""
  | some data =>
    match w.decodeLanguageConfig data with
    | none => ""
    | some name => name

/-- Body of the loop over `manifest.Languages` (index.go, 131-142). -/
def registerListedLanguage (w : IndexWorld) (extID extDir : String)
    (languages : GoMap ExtensionIndexLangEntry) (langDir : String) :
    GoMap ExtensionIndexLangEntry :=
  let langName := filepathBase langDir
  let configPath := filepathJoin [extDir, langDir, "config.toml"]
  let name := readLanguageName w configPath
  let langName := if name ≠ "" then name else langName
  mapSet languages langName { Extension := extID, Path := langDir }

/-- Body of the loop over the entries of `languages/` (index.go, 148-161). -/
def registerDetectedLanguage (w : IndexWorld) (extID langsDir : String)
    (languages : GoMap ExtensionIndexLangEntry) (e : DirEntry) :
    GoMap ExtensionIndexLangEntry :=
  if e.IsDir then
    let langPath := filepathJoin ["languages", e.Name]
    let langName := e.Name
    let configPath := filepathJoin [langsDir, e.Name, "config.toml"]
    let name := readLanguageName w configPath
    let langName := if name ≠ "" then name else langName
    mapSet languages langName { Extension := extID, Path := langPath }
  else languages

/-- The theme name of a listed theme path:
`strings.TrimSuffix(filepath.Base(themePath), filepath.Ext(themePath))`. -/
def themeName (themePath : String) : String :=
  stringsTrimSuffix (filepathBase themePath) (filepathExt themePath)

/-- Body of the loop over `manifest.Themes` (index.go, 167-173). -/
def registerListedTheme (extID : String) (themes : GoMap ExtensionIndexThemeEntry)
    (themePath : String) : GoMap ExtensionIndexThemeEntry :=
  mapSet themes (themeName themePath) { Extension := extID, Path := themePath }

/-- Body of the loop over the entries of `themes/` (index.go, 179-187). -/
def registerDetectedTheme (extID : String) (themes : GoMap ExtensionIndexThemeEntry)
    (e : DirEntry) : GoMap ExtensionIndexThemeEntry :=
  if !e.IsDir && stringsHasSuffix e.Name ".json" then
    let themeName := stringsTrimSuffix e.Name ".json"
    mapSet themes themeName
      { Extension := extID, Path := filepathJoin ["themes", e.Name] }
  else themes

/-- The part of `UpdateIndexForExtension` after the manifest has been decoded
(index.go, 123-191). -/
def applyManifest (w : IndexWorld) (extID extDir : String) (manifest : ExtensionManifest)
    (idx : ExtensionIndex) : ExtensionIndex :=
  let extensions := mapSet idx.Extensions extID { Manifest := manifest, Dev := false }
  let languages :=
    match manifest.Languages with
    | some dirs => dirs.foldl (registerListedLanguage w extID extDir) idx.Languages
    | none =>
      let langsDir := filepathJoin [extDir, "languages"]
      match w.readDir langsDir with
      | some entries => entries.foldl (registerDetectedLanguage w extID langsDir) idx.Languages
      | none => idx.Languages
  let themes :=
    match manifest.Themes with
    | some ps => ps.foldl (registerListedTheme extID) idx.Themes
    | none =>
      let themesDir := filepathJoin [extDir, "themes"]
      match w.readDir themesDir with
      | some entries => entries.foldl (registerDetectedTheme extID) idx.Themes
      | none => idx.Themes
  { idx with Extensions := extensions, Languages := languages, Themes := themes }

/-- Function `UpdateIndexForExtension` (index.go, 107-192). The Go function
changes the index in place and returns an error; both error returns come
before the first change, so an error leaves the index as it was. -/
def UpdateIndexForExtension (w : IndexWorld) (extID : String) (paths : ZedPaths)
    (idx : ExtensionIndex) : Except IndexError ExtensionIndex :=
  let extDir := filepathJoin [paths.Installed, extID]
  let tomlPath := filepathJoin [extDir, "extension.toml"]
  match w.readFile tomlPath with
  | none => .error .readExtensionToml
  | some data =>
    match w.decodeManifest data with
    | none => .error .parseExtensionToml
    | some manifest => .ok (applyManifest w extID extDir manifest idx)

/-! ## index.go: the writes of UpdateIndexForExtension, as a list -/

/-- The assignments `m[p.1] = p.2`, for the pairs of `ps` in order. -/
def setAll {V : Type} (m : GoMap V) (ps : List (String × V)) : GoMap V :=
  ps.foldl (fun acc p => mapSet acc p.1 p.2) m

/-- An optional assignment `m[p.1] = p.2`. -/
def setOpt {V : Type} (m : GoMap V) (o : Option (String × V)) : GoMap V :=
  match o with
  | some p => mapSet m p.1 p.2
  | none => m

/-- The key and value that `registerListedLanguage` assigns. -/
def listedLanguageWrite (w : IndexWorld) (extID extDir langDir : String) :
    String × ExtensionIndexLangEntry :=
  let name := readLanguageName w (filepathJoin [extDir, langDir, "config.toml"])
  (if name ≠ "" then name else filepathBase langDir, { Extension := extID, Path := langDir })

/-- The key and value that `registerDetectedLanguage` assigns, if any. -/
def detectedLanguageWrite (w : IndexWorld) (extID langsDir : String) (e : DirEntry) :
    Option (String × ExtensionIndexLangEntry) :=
  if e.IsDir then
    let name := readLanguageName w (filepathJoin [langsDir, e.Name, "config.toml"])
    some (if name ≠ "" then name else e.Name,
      { Extension := extID, Path := filepathJoin ["languages", e.Name] })
  else none

/-- The key and value that `registerDetectedTheme` assigns, if any. -/
def detectedThemeWrite (extID : String) (e : DirEntry) :
    Option (String × ExtensionIndexThemeEntry) :=
  if !e.IsDir && stringsHasSuffix e.Name ".json" then
    some (stringsTrimSuffix e.Name ".json",
      { Extension := extID, Path := filepathJoin ["themes", e.Name] })
  else none

/-- The assignments to `idx.Languages` made by `applyManifest`, in order. -/
def languageWrites (w : IndexWorld) (extID extDir : String) (manifest : ExtensionManifest) :
    List (String × ExtensionIndexLangEntry) :=
  match manifest.Languages with
  | some dirs => dirs.map (listedLanguageWrite w extID extDir)
  | none =>
    match w.readDir (filepathJoin [extDir, "languages"]) with
    | some entries =>
      entries.filterMap (detectedLanguageWrite w extID (filepathJoin [extDir, "languages"]))
    | none => []

/-- The assignments to `idx.Themes` made by `applyManifest`, in order. -/
def themeWrites (w : IndexWorld) (extID extDir : String) (manifest : ExtensionManifest) :
    List (String × ExtensionIndexThemeEntry) :=
  match manifest.Themes with
  | some ps => ps.map (fun themePath =>
      (themeName themePath, { Extension := extID, Path := themePath }))
  | none =>
    match w.readDir (filepathJoin [extDir, "themes"]) with
    | some entries => entries.filterMap (detectedThemeWrite extID)
    | none => []

/-! ## registry.go -/

/-- Go struct `ExtensionInfo`. -/
structure ExtensionInfo where
  ID : String
  Name : String
  Version : String
  Description : String
  Authors : Option (List String)
  Repository : String
  SchemaVersion : Int
  WasmAPIVersion : Option String
  Provides : Option (List String)
  PublishedAt : String
  DownloadCount : Int
  deriving DecidableEq, Repr

/-- Errors returned by `FindExtension`: the error of `SearchExtensions`, passed
on unchanged, or `extension %q not found`. -/
inductive RegistryError where
  | search (err : String)
  | notFound (id : String)
  deriving DecidableEq, Repr

/-- The loop `for _, ext := range results { if ext.ID == id { return &ext, nil } }`
of `FindExtension`; `none` when the loop runs to its end. -/
def findByID (id : String) : List ExtensionInfo → Option ExtensionInfo
  | [] => none
  | ext :: rest => if ext.ID = id then some ext else findByID id rest

/-- Function `FindExtension` (registry.go, 59-71). `search` is
`SearchExtensions`: the answer of the registry to each query. -/
def FindExtension (search : String → Except String (List ExtensionInfo)) (id : String) :
    Except RegistryError ExtensionInfo :=
  match search id with
  | .error err => .error (.search err)
  | .ok results =>
    match findByID id results with
    | some ext => .ok ext
    | none => .error (.notFound id)

/-! ## downloader.go -/

/-- One second of `time.Duration`, in nanoseconds. -/
def second : Nat := 1000000000

/-- Constant `maxRetries`. -/
def maxRetries : Nat := 5

/-- Constant `baseBackoff = 2 * time.Second`. -/
def baseBackoff : Nat := 2 * second

/-- Constant `maxBackoffSec`. -/
def maxBackoffSec : Nat := 30

/-- The part of an HTTP response that `downloadOnce` reads. -/
structure Response where
  StatusCode : Nat
  ContentLength : Int
  deriving DecidableEq, Repr

/-- What one call of `downloadOnce` meets. -/
structure AttemptWorld where
  /-- Call `httpClient.Get(url)`. -/
  get : Except String Response
  /-- Call `os.Create(destPath)`: the error, if any. -/
  create : Option String
  /-- Call `io.Copy(out, reader)`: the bytes that reached the file and the
  error, if any. -/
  copy : List Nat × Option String
  /-- Call `os.Remove(destPath)`: the error, if any. The source discards it. -/
  remove : Option String

/-- Errors returned by `downloadOnce`. -/
inductive AttemptError where
  | requestError (err : String)
  | httpStatus (code : Nat)
  | createFile (err : String)
  | writeError (err : String)
  | incomplete (written total : Int)
  deriving DecidableEq, Repr

/-- The error returned by `DownloadFile`:
`download failed after %d retries: %w`, wrapping `lastErr`. -/
inductive DownloadError where
  | exhausted (retries : Nat) (last : Option AttemptError)
  deriving DecidableEq, Repr

/-- The file at `destPath` after the call `os.Remove(destPath)` made while it
holds `bytes`: gone when the call succeeds, still there when it is refused. -/
def afterRemove (a : AttemptWorld) (bytes : List Nat) : Option (List Nat) :=
  match a.remove with
  | none => none
  | some _ => some bytes

/-- Function `downloadOnce` (downloader.go, 42-85). The second argument and the
second component of the result are the file at `destPath` before and after
the call: `none` when there is no file, otherwise its bytes. `os.Create`
empties the file, `io.Copy` fills it, and `os.Remove`, whose result the
source ignores, takes it away unless it is refused. -/
def downloadOnce (a : AttemptWorld) (file : Option (List Nat)) :
    Option AttemptError × Option (List Nat) :=
  match a.get with
  | .error err => (some (.requestError err), file)
  | .ok resp =>
    if resp.StatusCode ≠ 200 then (some (.httpStatus resp.StatusCode), file)
    else
      match a.create with
      | some err => (some (.createFile err), file)
      | none =>
        let totalSize := resp.ContentLength
        let written : Int := a.copy.1.length
        match a.copy.2 with
        | some err => (some (.writeError err), afterRemove a a.copy.1)
        | none =>
          if totalSize > 0 ∧ written ≠ totalSize then
            (some (.incomplete written totalSize), afterRemove a a.copy.1)
          else (none, some a.copy.1)

/-- What `DownloadFile` does that can be observed from outside. -/
inductive DownloadEvent where
  | sleep (delay : Nat)
  | attempt (n : Nat)
  deriving DecidableEq, Repr

/-- Result of `DownloadFile`: the returned error, the file at `destPath`
afterwards, and the sleeps and calls of `downloadOnce` in order. -/
structure DownloadResult where
  err : Option DownloadError
  file : Option (List Nat)
  trace : List DownloadEvent
  deriving DecidableEq, Repr

/-- The delay before retry `attempt`:
`min(float64(baseBackoff) * 2^(attempt-1), maxBackoffSec * float64(time.Second))`
as a `time.Duration`. All values are integers far below `2^53`, so the
float64 arithmetic of the source is exact. -/
def backoffDelay (attempt : Nat) : Nat :=
  min (baseBackoff * 2 ^ (attempt - 1)) (maxBackoffSec * second)

/-- The loop of `DownloadFile`, with `n` iterations left before
`attempt <= maxRetries` fails. -/
def downloadLoop (world : Nat → AttemptWorld) :
    Nat → Nat → Option AttemptError → Option (List Nat) → List DownloadEvent → DownloadResult
  | 0, _, lastErr, file, trace =>
    { err := some (.exhausted maxRetries lastErr), file := file, trace := trace }
  | n + 1, attempt, _, file, trace =>
    let trace := if attempt > 0 then trace ++ [.sleep (backoffDelay attempt)] else trace
    let r := downloadOnce (world attempt) file
    let trace := trace ++ [.attempt attempt]
    match r.1 with
    | none => { err := none, file := r.2, trace := trace }
    | some e => downloadLoop world n (attempt + 1) (some e) r.2 trace

/-- Function `DownloadFile` (downloader.go, 19-40). `world n` is what the call
of `downloadOnce` in iteration `n` meets; `file` is the file at `destPath`
before the call. -/
def DownloadFile (world : Nat → AttemptWorld) (file : Option (List Nat)) : DownloadResult :=
  downloadLoop world (maxRetries + 1) 0 none file []

/-- The numbers of the attempts in a trace. -/
def attemptsMade (trace : List DownloadEvent) : List Nat :=
  trace.filterMap (fun e => match e with
    | .attempt n => some n
    | .sleep _ => none)

/-- The delay slept immediately before attempt `a` in a trace; `none` when the
event before it is not a sleep or the attempt is not in the trace. -/
def sleepBefore : List DownloadEvent → Nat → Option Nat
  | .sleep d :: .attempt n :: rest, a =>
    if n = a then some d else sleepBefore rest a
  | _ :: rest, a => sleepBefore rest a
  | [], _ => none

/-- The attempt gets as far as a successful `os.Create`. -/
def createsFile (a : AttemptWorld) : Bool :=
  match a.get with
  | .error _ => false
  | .ok resp => resp.StatusCode = 200 && a.create.isNone

/-- The file at `destPath` after an attempt that fails: what `os.Remove`
leaves of the bytes written when the attempt created the file, and the file
as it was otherwise. -/
def fileAfterFail (a : AttemptWorld) (file : Option (List Nat)) : Option (List Nat) :=
  if createsFile a = true then afterRemove a a.copy.1 else file

/-- An attempt whose request fails. -/
def requestFails : AttemptWorld :=
  { get := .error "connection refused", create := none, copy := ([], none), remove := none }

/-- An attempt that downloads the three bytes the server announces. -/
def threeBytes : AttemptWorld :=
  { get := .ok { StatusCode := 200, ContentLength := 3 }, create := none,
    copy := ([1, 2, 3], none), remove := none }

/-- An attempt that receives two of the three bytes the server announces. -/
def twoOfThree : AttemptWorld :=
  { get := .ok { StatusCode := 200, ContentLength := 3 }, create := none,
    copy := ([1, 2], none), remove := none }

/-- An attempt that receives two of the three bytes the server announces, in
a directory where the file can be created and written but not removed. -/
def twoOfThreeStuck : AttemptWorld :=
  { get := .ok { StatusCode := 200, ContentLength := 3 }, create := none,
    copy := ([1, 2], none), remove := some "operation not permitted" }

/-- The error that `downloadOnce` returns in a given world; it does not depend
on the file at `destPath` (lemma `downloadOnce_fst`). -/
def attemptError (a : AttemptWorld) : Option AttemptError := (downloadOnce a none).1

/-- The events of the first `n` iterations of the loop of `DownloadFile`. -/
def schedule : Nat → List DownloadEvent
  | 0 => []
  | n + 1 =>
    (if n > 0 then schedule n ++ [.sleep (backoffDelay n)] else schedule n) ++ [.attempt n]

/-- A registry record with the given ID. -/
def sampleInfo (id : String) : ExtensionInfo :=
  { ID := id, Name := id, Version := "1.0.0", Description := "", Authors := none,
    Repository := "", SchemaVersion := 1, WasmAPIVersion := none, Provides := none,
    PublishedAt := "", DownloadCount := 0 }

/-- A registry whose answer to every query holds the records `foo-bar`, `foo`
and `foobar`, in this order, apart from the query `fo`, which it answers
with `foo-bar` and `foobar` only. -/
def sampleSearch (query : String) : Except String (List ExtensionInfo) :=
  if query = "fo" then .ok [sampleInfo "foo-bar", sampleInfo "foobar"]
  else .ok [sampleInfo "foo-bar", sampleInfo "foo", sampleInfo "foobar"]

/-! ## installer.go: ExtractTarGz -/

/-- The type flags of a tar header that `ExtractTarGz` tells apart. -/
inductive Typeflag where
  | TypeDir
  | TypeReg
  | other (flag : Nat)
  deriving DecidableEq, Repr

/-- The fields of `tar.Header` that `ExtractTarGz` reads. -/
structure Header where
  Name : String
  Typeflag : Typeflag
  Mode : Nat
  deriving DecidableEq, Repr

/-- A call that creates or writes something on the file system. -/
inductive FsEvent where
  /-- Call `os.MkdirAll(path, 0755)`. -/
  | mkdirAll (path : String)
  /-- Call `os.OpenFile(path, O_CREATE|O_WRONLY|O_TRUNC, mode)`. -/
  | openFile (path : String) (mode : Nat)
  /-- Call `io.Copy(outFile, tr)` into the file opened at `path`. -/
  | copy (path : String)
  deriving DecidableEq, Repr

/-- The path a file-system call acts on. -/
def FsEvent.path : FsEvent → String
  | .mkdirAll p => p
  | .openFile p _ => p
  | .copy p => p

/-- What `ExtractTarGz` meets: the error, if any, of each call, which may
depend on the calls made so far. -/
structure ExtractWorld where
  /-- Call `os.Open(archivePath)`. -/
  openArchive : Option String
  /-- Call `gzip.NewReader(f)`. -/
  gzipReader : Option String
  mkdirAll : List FsEvent → String → Option String
  openFile : List FsEvent → String → Option String
  copy : List FsEvent → String → Option String

/-- Errors returned by `ExtractTarGz`. -/
inductive ExtractError where
  | openArchive (err : String)
  | gzipReader (err : String)
  | tarRead (err : String)
  | invalidPath (name : String)
  | mkdir (target err : String)
  | mkdirParent (target err : String)
  | createFile (target err : String)
  | writeFile (target err : String)
  deriving DecidableEq, Repr

/-- Result of `ExtractTarGz`: the returned error and the file-system calls
made, in order (a failing call is listed too). -/
structure ExtractResult where
  err : Option ExtractError
  events : List FsEvent
  deriving DecidableEq, Repr

/-- The loop of `ExtractTarGz` (installer.go, 30-70). The archive is the list of
the results of `tr.Next()` up to `io.EOF`: a header or a read error. -/
def extractEntries (w : ExtractWorld) (destDir : String) :
    List (Except String Header) → List FsEvent → ExtractResult
  | [], events => { err := none, events := events }
  | .error err :: _, events => { err := some (.tarRead err), events := events }
  | .ok header :: rest, events =>
    let name := filepathClean header.Name
    if name = "." then extractEntries w destDir rest events
    else if stringsContains name ".." then
      { err := some (.invalidPath name), events := events }
    else
      let target := filepathJoin [destDir, name]
      match header.Typeflag with
      | .TypeDir =>
        match w.mkdirAll events target with
        | some err =>
          { err := some (.mkdir target err), events := events ++ [.mkdirAll target] }
        | none => extractEntries w destDir rest (events ++ [.mkdirAll target])
      | .TypeReg =>
        let events1 := events ++ [.mkdirAll (filepathDir target)]
        match w.mkdirAll events (filepathDir target) with
        | some err => { err := some (.mkdirParent target err), events := events1 }
        | none =>
          let events2 := events1 ++ [.openFile target header.Mode]
          match w.openFile events1 target with
          | some err => { err := some (.createFile target err), events := events2 }
          | none =>
            let events3 := events2 ++ [.copy target]
            match w.copy events2 target with
            | some err => { err := some (.writeFile target err), events := events3 }
            | none => extractEntries w destDir rest events3
      | .other _ => extractEntries w destDir rest events

/-- Function `ExtractTarGz` (installer.go, 15-73). -/
def ExtractTarGz (w : ExtractWorld) (archive : List (Except String Header))
    (destDir : String) : ExtractResult :=
  match w.openArchive with
  | some err => { err := some (.openArchive err), events := [] }
  | none =>
    match w.gzipReader with
    | some err => { err := some (.gzipReader err), events := [] }
    | none => extractEntries w destDir archive []

/-- A path element that `filepath.Clean` keeps where it stands: neither empty
nor `.` nor `..`. -/
def realElem (s : List Char) : Bool := decide (s ≠ [] ∧ s ≠ ['.'] ∧ s ≠ dotdot)

/-- A target of an extraction into `destDir`: `destDir` joined with a name that
is not `.` and does not contain `..`; and, when `destDir` is not empty, the
path elements of the target are those of the cleaned `destDir` followed by
further elements, none of them empty, `.` or `..`. -/
def SafeTarget (destDir target : String) : Prop :=
  ∃ name : String, name ≠ "." ∧ stringsContains name ".." = false ∧
    target = filepathJoin [destDir, name] ∧
    (destDir ≠ "" → ∃ extra : List (List Char), (∀ e ∈ extra, realElem e = true) ∧
      target.data = renderPath (decide (destDir.data.head? = some '/'))
        (cleanElems destDir.data ++ extra))

/-- A call on a path on which `ExtractTarGz` may call the file system: a safe
target or the parent directory of one. -/
def SafeEvent (destDir : String) (e : FsEvent) : Prop :=
  ∃ target, SafeTarget destDir target ∧ (e.path = target ∨ e.path = filepathDir target)

/-- A world in which every call succeeds. -/
def kindWorld : ExtractWorld :=
  { openArchive := none, gzipReader := none, mkdirAll := fun _ _ => none,
    openFile := fun _ _ => none, copy := fun _ _ => none }

/-- An archive with a regular file, an entry that climbs out of the
destination, and a further regular file. -/
def slipArchive : List (Except String Header) :=
  [.ok { Name := "./extension.toml", Typeflag := .TypeReg, Mode := 420 },
   .ok { Name := "themes/../../../etc/passwd", Typeflag := .TypeReg, Mode := 420 },
   .ok { Name := "themes/foo.json", Typeflag := .TypeReg, Mode := 420 }]

/-! ## The index invariant and key sets -/

/-- Every theme entry and every language entry is owned by an extension that
is a key of the extensions map. -/
def IndexInvariant (idx : ExtensionIndex) : Prop :=
  (∀ p ∈ idx.Themes, p.2.Extension ∈ mapKeys idx.Extensions) ∧
  (∀ p ∈ idx.Languages, p.2.Extension ∈ mapKeys idx.Extensions)

instance (idx : ExtensionIndex) : Decidable (IndexInvariant idx) := by
  unfold IndexInvariant
  infer_instance

/-- Two maps have the same set of keys. -/
def sameKeys {V W : Type} (a : GoMap V) (b : GoMap W) : Prop :=
  mapKeys a ⊆ mapKeys b ∧ mapKeys b ⊆ mapKeys a

instance {V W : Type} (a : GoMap V) (b : GoMap W) : Decidable (sameKeys a b) := by
  unfold sameKeys
  infer_instance

/-- The key under which a listed language directory is registered, in the
words of the specification: the name from the directory's `config.toml` if
that file is present, parseable and the name non-empty, otherwise the base
name of the directory. -/
def specLanguageKey (w : IndexWorld) (extDir langDir : String) : String :=
  match w.readFile (filepathJoin [extDir, langDir, "config.toml"]) with
  | some data =>
    match w.decodeLanguageConfig data with
    | some name => if name ≠ "" then name else filepathBase langDir
    | none => filepathBase langDir
  | none => filepathBase langDir

/-- The key of a listed theme path in the words of the specification: the base
filename with its extension stripped. -/
def specThemeKey (themePath : String) : String :=
  stringsTrimSuffix (filepathBase themePath) (filepathExt (filepathBase themePath))

/-! ## Sample data -/

/-- Paths of a Linux installation. -/
def samplePaths : ZedPaths :=
  { Base := "/zed/extensions", Installed := "/zed/extensions/installed",
    Index := "/zed/extensions/index.json" }

/-- Manifest of extension `foo`, version `1.0.0`, listing one language
directory and one theme. -/
def fooManifest : ExtensionManifest :=
  { ID := "foo", Name := "Foo", Version := "1.0.0", Description := "", Authors := none,
    Repository := "", Lib := none, Themes := some ["themes/foo.json"], IconThemes := none,
    Languages := some ["languages/foo"], Grammars := [] }

/-- An installation directory of `foo` holding only `extension.toml`, which
decodes to `fooManifest`. -/
def fooWorld : IndexWorld :=
  { readFile := fun path =>
      if path = "/zed/extensions/installed/foo/extension.toml" then some "foo-toml" else none
    decodeManifest := fun data => if data = "foo-toml" then some fooManifest else none
    decodeLanguageConfig := fun _ => none
    readDir := fun _ => none }

/-- Manifest of `foo` whose theme path is written with a trailing separator. -/
def slashManifest : ExtensionManifest :=
  { fooManifest with Themes := some ["themes/foo.json/"] }

/-- An installation directory of `foo` whose `extension.toml` decodes to
`slashManifest`. -/
def slashWorld : IndexWorld :=
  { fooWorld with decodeManifest := fun data =>
      if data = "foo-toml" then some slashManifest else none }

/-- An index left by an earlier version of `foo` that shipped the theme
`old` and the language `Old`. -/
def staleIndex : ExtensionIndex :=
  { Extensions := [("foo", { Manifest := { fooManifest with Version := "0.9.0" }, Dev := false })]
    Themes := [("old", { Extension := "foo", Path := "themes/old.json" })]
    IconThemes := []
    Languages := [("Old", { Extension := "foo", Path := "languages/old" })] }

/-! ## index.go: LoadIndex, SaveIndex; main.go: the install and remove commands -/

/-- Result of `os.ReadFile(paths.Index)`. -/
inductive ReadIndexResult where
  | data (d : String)
  | notExist
  | failed (err : String)
  deriving DecidableEq, Repr

/-- Errors returned by `LoadIndex`. -/
inductive LoadError where
  | readIndex (err : String)
  | parseIndex (err : String)
  deriving DecidableEq, Repr

/-- Errors returned by `SaveIndex`. -/
inductive SaveError where
  | marshalIndex (err : String)
  | writeIndex (err : String)
  deriving DecidableEq, Repr

/-- What the commands of `main.go` meet. -/
structure CmdWorld where
  /-- Call `GetZedPaths()`. -/
  getZedPaths : Except String ZedPaths
  /-- Call `SearchExtensions(query)`. -/
  search : String → Except String (List ExtensionInfo)
  /-- Call `InstallExtension(ext, paths)`: the error, if any. -/
  installExtension : ExtensionInfo → ZedPaths → Option String
  /-- Call `RemoveExtension(id, paths)`: the error, if any. -/
  removeExtension : String → ZedPaths → Option String
  /-- Call `os.ReadFile(paths.Index)`. -/
  readIndexFile : String → ReadIndexResult
  /-- Call `json.Unmarshal(data, &idx)`; a nil map of the decoded index is an
  empty one here, which is what `LoadIndex` turns it into. -/
  decodeIndex : String → Except String ExtensionIndex
  /-- The installed extensions as `UpdateIndexForExtension` reads them. -/
  files : IndexWorld
  /-- Call `json.MarshalIndent(idx, "", "  ")`. -/
  marshalIndex : ExtensionIndex → Except String String
  /-- Call `os.WriteFile(paths.Index, data, 0644)`: the error, if any. -/
  writeIndexFile : String → String → Option String

/-- Function `LoadIndex` (index.go, 55-84). -/
def LoadIndex (w : CmdWorld) (paths : ZedPaths) : Except LoadError ExtensionIndex :=
  match w.readIndexFile paths.Index with
  | .notExist => .ok newEmptyIndex
  | .failed err => .error (.readIndex err)
  | .data d =>
    match w.decodeIndex d with
    | .error err => .error (.parseIndex err)
    | .ok idx => .ok idx

/-- Function `SaveIndex` (index.go, 95-105): the error, if any. -/
def SaveIndex (w : CmdWorld) (paths : ZedPaths) (idx : ExtensionIndex) : Option SaveError :=
  match w.marshalIndex idx with
  | .error err => some (.marshalIndex err)
  | .ok data =>
    match w.writeIndexFile paths.Index data with
    | some err => some (.writeIndex err)
    | none => none

/-- Errors returned by the `RunE` functions of the install and remove
commands. -/
inductive CmdError where
  | paths (err : String)
  | find (err : RegistryError)
  | install (err : String)
  | remove (err : String)
  | loadIndex (err : LoadError)
  deriving DecidableEq, Repr

/-- Lines printed by the install and remove commands. -/
inductive Printed where
  | lookingUp (extID : String)
  | installing (name version : String)
  | warningUpdateIndex (err : IndexError)
  | warningSaveIndex (err : SaveError)
  | installed (name version : String)
  | removing (extID : String)
  | removed (extID : String)
  deriving DecidableEq, Repr

/-- Result of a command: the returned error and the lines printed. -/
structure CmdResult where
  err : Option CmdError
  out : List Printed
  deriving DecidableEq, Repr

/-- The statement `if len(args) > 1 { ext.Version = args[1] }`. -/
def overrideVersion (ext : ExtensionInfo) (versionArg : Option String) : ExtensionInfo :=
  match versionArg with
  | some v => { ext with Version := v }
  | none => ext

/-- The `RunE` function of `installCmd` (main.go, 34-76); `extID` is `args[0]`
and `versionArg` is `args[1]` when it is given. -/
def installCmd (w : CmdWorld) (extID : String) (versionArg : Option String) : CmdResult :=
  match w.getZedPaths with
  | .error err => { err := some (.paths err), out := [] }
  | .ok paths =>
    let out := [Printed.lookingUp extID]
    match FindExtension w.search extID with
    | .error err => { err := some (.find err), out := out }
    | .ok found =>
      let ext := overrideVersion found versionArg
      let out := out ++ [.installing ext.Name ext.Version]
      match w.installExtension ext paths with
      | some err => { err := some (.install err), out := out }
      | none =>
        match LoadIndex w paths with
        | .error err => { err := some (.loadIndex err), out := out }
        | .ok idx =>
          let out :=
            match UpdateIndexForExtension w.files extID paths idx with
            | .error err => out ++ [.warningUpdateIndex err]
            | .ok idx2 =>
              match SaveIndex w paths idx2 with
              | some err => out ++ [.warningSaveIndex err]
              | none => out
          { err := none, out := out ++ [.installed ext.Name ext.Version] }

/-- The `RunE` function of `removeCmd` (main.go, 84-111). -/
def removeCmd (w : CmdWorld) (extID : String) : CmdResult :=
  match w.getZedPaths with
  | .error err => { err := some (.paths err), out := [] }
  | .ok paths =>
    let out := [Printed.removing extID]
    match w.removeExtension extID paths with
    | some err => { err := some (.remove err), out := out }
    | none =>
      match LoadIndex w paths with
      | .error err => { err := some (.loadIndex err), out := out }
      | .ok idx =>
        let idx2 := RemoveFromIndex extID idx
        let out :=
          match SaveIndex w paths idx2 with
          | some err => out ++ [.warningSaveIndex err]
          | none => out
        { err := none, out := out ++ [.removed extID] }

/-- A machine on which `foo` installs and uninstalls without error, the
registry knows `foo`, and `index.json` holds what `indexFile` says. -/
def sampleCmdWorld (indexFile : ReadIndexResult) (diskFull : Bool) : CmdWorld :=
  { getZedPaths := .ok samplePaths
    search := sampleSearch
    installExtension := fun _ _ => none
    removeExtension := fun _ _ => none
    readIndexFile := fun _ => indexFile
    decodeIndex := fun d => if d = "{}" then .ok newEmptyIndex else .error "invalid character"
    files := fooWorld
    marshalIndex := fun _ => .ok "{...}"
    writeIndexFile := fun _ _ => if diskFull then some "no space left on device" else none }

/-! ## Lemmas on maps -/

theorem mem_mapDelete {V : Type} (m : GoMap V) (k : String) (p : String × V) :
    p ∈ mapDelete m k ↔ p ∈ m ∧ p.1 ≠ k := by
  simp [mapDelete]

theorem mem_mapSet {V : Type} (m : GoMap V) (k : String) (v : V) (p : String × V) :
    p ∈ mapSet m k v ↔ (p ∈ m ∧ p.1 ≠ k) ∨ p = (k, v) := by
  simp [mapSet, mem_mapDelete]

theorem mapGet_eq_none_iff {V : Type} (m : GoMap V) (k : String) :
    mapGet m k = none ↔ ∀ p ∈ m, p.1 ≠ k := by
  induction m with
  | nil => simp [mapGet]
  | cons p rest ih =>
    by_cases h : p.1 = k
    · simp [mapGet, h]
    · simp [mapGet, h, ih]

theorem mapGet_isSome_iff {V : Type} (m : GoMap V) (k : String) :
    (mapGet m k).isSome = true ↔ k ∈ mapKeys m := by
  induction m with
  | nil => simp [mapGet, mapKeys]
  | cons p rest ih =>
    by_cases h : p.1 = k
    · simp [mapGet, h, mapKeys]
    · have h2 : ¬ k = p.1 := fun e => h e.symm
      simp only [mapGet, h, if_false, ih]
      simp [mapKeys, h2]

theorem mapGet_mem {V : Type} (m : GoMap V) (k : String) (v : V)
    (h : mapGet m k = some v) : (k, v) ∈ m := by
  induction m with
  | nil => simp [mapGet] at h
  | cons p rest ih =>
    by_cases hp : p.1 = k
    · simp [mapGet, hp] at h
      have : p = (k, v) := by
        cases p; simp_all
      simp [this]
    · simp [mapGet, hp] at h
      exact List.mem_cons_of_mem _ (ih h)

theorem mapGet_mapDelete_self {V : Type} (m : GoMap V) (k : String) :
    mapGet (mapDelete m k) k = none := by
  rw [mapGet_eq_none_iff]
  intro p hp
  exact ((mem_mapDelete m k p).1 hp).2

theorem mapGet_append_of_none {V : Type} (m n : GoMap V) (k : String)
    (h : mapGet m k = none) : mapGet (m ++ n) k = mapGet n k := by
  induction m with
  | nil => rfl
  | cons p rest ih =>
    by_cases hp : p.1 = k
    · simp [mapGet, hp] at h
    · simp only [mapGet, hp, if_false] at h
      simp [mapGet, hp, ih h]

theorem mapGet_append_of_some {V : Type} (m n : GoMap V) (k : String) (v : V)
    (h : mapGet m k = some v) : mapGet (m ++ n) k = some v := by
  induction m with
  | nil => simp [mapGet] at h
  | cons p rest ih =>
    by_cases hp : p.1 = k
    · simp [mapGet, hp] at h
      simp [mapGet, hp, h]
    · simp only [mapGet, hp, if_false] at h
      simp [mapGet, hp, ih h]

theorem mapGet_mapDelete_ne {V : Type} (m : GoMap V) (k j : String) (h : j ≠ k) :
    mapGet (mapDelete m k) j = mapGet m j := by
  induction m with
  | nil => rfl
  | cons p rest ih =>
    by_cases hp : p.1 = k
    · have hj : ¬ p.1 = j := fun e => h (e.symm.trans hp)
      have : mapDelete (p :: rest) k = mapDelete rest k := by
        simp [mapDelete, hp]
      rw [this, ih]
      simp [mapGet, hj]
    · have : mapDelete (p :: rest) k = p :: mapDelete rest k := by
        simp [mapDelete, hp]
      rw [this]
      by_cases hj : p.1 = j
      · simp [mapGet, hj]
      · simp [mapGet, hj, ih]

theorem mapGet_mapSet_self {V : Type} (m : GoMap V) (k : String) (v : V) :
    mapGet (mapSet m k v) k = some v := by
  unfold mapSet
  rw [mapGet_append_of_none _ _ _ (mapGet_mapDelete_self m k)]
  simp [mapGet]

theorem mapGet_mapSet_ne {V : Type} (m : GoMap V) (k j : String) (v : V) (h : j ≠ k) :
    mapGet (mapSet m k v) j = mapGet m j := by
  unfold mapSet
  have hk : ¬ k = j := fun e => h e.symm
  cases hm : mapGet (mapDelete m k) j with
  | none =>
    rw [mapGet_append_of_none _ _ _ hm]
    rw [mapGet_mapDelete_ne m k j h] at hm
    simp [mapGet, hk, hm]
  | some v2 =>
    rw [mapGet_append_of_some _ _ _ _ hm]
    rw [mapGet_mapDelete_ne m k j h] at hm
    exact hm.symm

theorem mem_foldl_deleteOwned {V : Type} (owner : V → String) (extID : String)
    (l acc : GoMap V) (p : String × V) :
    p ∈ l.foldl (fun a q => if owner q.2 = extID then mapDelete a q.1 else a) acc ↔
      p ∈ acc ∧ ∀ q ∈ l, owner q.2 = extID → p.1 ≠ q.1 := by
  induction l generalizing acc with
  | nil => simp
  | cons q rest ih =>
    rw [List.foldl_cons, ih]
    by_cases hq : owner q.2 = extID
    · simp only [hq, if_true, mem_mapDelete, List.mem_cons, forall_eq_or_imp, true_implies]
      tauto
    · simp only [hq, if_false, List.mem_cons, forall_eq_or_imp, false_implies, true_and]

theorem mem_rangeDeleteOwned {V : Type} (owner : V → String) (extID : String)
    (m : GoMap V) (p : String × V) :
    p ∈ rangeDeleteOwned owner extID m ↔
      p ∈ m ∧ ∀ q ∈ m, owner q.2 = extID → p.1 ≠ q.1 :=
  mem_foldl_deleteOwned owner extID m m p

theorem owner_ne_of_mem_rangeDeleteOwned {V : Type} (owner : V → String) (extID : String)
    (m : GoMap V) (p : String × V) (h : p ∈ rangeDeleteOwned owner extID m) :
    owner p.2 ≠ extID := by
  rw [mem_rangeDeleteOwned] at h
  intro ho
  exact h.2 p h.1 ho rfl

theorem setAll_append {V : Type} (m : GoMap V) (ps qs : List (String × V)) :
    setAll m (ps ++ qs) = setAll (setAll m ps) qs := by
  simp [setAll, List.foldl_append]

theorem setAll_snoc {V : Type} (m : GoMap V) (ps : List (String × V)) (p : String × V) :
    setAll m (ps ++ [p]) = mapSet (setAll m ps) p.1 p.2 := by
  simp [setAll, List.foldl_append]

theorem mem_setAll {V : Type} (m : GoMap V) (ps : List (String × V)) (p : String × V)
    (h : p ∈ setAll m ps) : (p ∈ m ∧ p.1 ∉ mapKeys ps) ∨ p ∈ ps := by
  induction ps using List.reverseRecOn with
  | nil => left; simpa [setAll, mapKeys] using h
  | append_singleton l a ih =>
    rw [setAll_snoc, mem_mapSet] at h
    rcases h with ⟨h1, h2⟩ | h
    · rcases ih h1 with ⟨hm, hk⟩ | hl
      · left
        refine ⟨hm, ?_⟩
        simp only [mapKeys, List.map_append, List.mem_append, List.map_cons, List.map_nil,
          List.mem_singleton, not_or]
        exact ⟨hk, h2⟩
      · right; simp [hl]
    · right
      have : p = a := by rw [h]
      simp [this]

theorem mem_setAll_of_mem {V : Type} (m : GoMap V) (ps : List (String × V)) (p : String × V)
    (hm : p ∈ m) (hk : p.1 ∉ mapKeys ps) : p ∈ setAll m ps := by
  induction ps using List.reverseRecOn with
  | nil => simpa [setAll] using hm
  | append_singleton l a ih =>
    simp only [mapKeys, List.map_append, List.mem_append, List.map_cons, List.map_nil,
      List.mem_singleton, not_or] at hk
    rw [setAll_snoc, mem_mapSet]
    left
    exact ⟨ih hk.1, hk.2⟩

theorem mapGet_setAll_of_key {V : Type} (m : GoMap V) (ps : List (String × V)) (k : String)
    (hk : k ∈ mapKeys ps) : ∃ v, (k, v) ∈ ps ∧ mapGet (setAll m ps) k = some v := by
  induction ps using List.reverseRecOn with
  | nil => simp [mapKeys] at hk
  | append_singleton l a ih =>
    rw [setAll_snoc]
    by_cases ha : k = a.1
    · refine ⟨a.2, ?_, ?_⟩
      · simp [ha]
      · rw [ha]; exact mapGet_mapSet_self _ _ _
    · simp only [mapKeys, List.map_append, List.mem_append, List.map_cons, List.map_nil,
        List.mem_singleton] at hk
      rcases hk with hk | hk
      · obtain ⟨v, hv, hg⟩ := ih hk
        refine ⟨v, ?_, ?_⟩
        · simp [hv]
        · rw [mapGet_mapSet_ne _ _ _ _ ha]; exact hg
      · exact absurd hk ha

theorem mem_mapKeys_iff {V : Type} (m : GoMap V) (k : String) :
    k ∈ mapKeys m ↔ ∃ p ∈ m, p.1 = k := by
  simp [mapKeys]

theorem mem_mapKeys_setAll {V : Type} (m : GoMap V) (ps : List (String × V)) (k : String) :
    k ∈ mapKeys (setAll m ps) ↔ k ∈ mapKeys m ∨ k ∈ mapKeys ps := by
  constructor
  · intro h
    obtain ⟨p, hp, rfl⟩ := (mem_mapKeys_iff _ _).1 h
    rcases mem_setAll m ps p hp with ⟨hm, _⟩ | hl
    · left; exact (mem_mapKeys_iff _ _).2 ⟨p, hm, rfl⟩
    · right; exact (mem_mapKeys_iff _ _).2 ⟨p, hl, rfl⟩
  · intro h
    by_cases hk : k ∈ mapKeys ps
    · obtain ⟨v, _, hg⟩ := mapGet_setAll_of_key m ps k hk
      exact (mem_mapKeys_iff _ _).2 ⟨(k, v), mapGet_mem _ _ _ hg, rfl⟩
    · rcases h with h | h
      · obtain ⟨p, hp, rfl⟩ := (mem_mapKeys_iff _ _).1 h
        exact (mem_mapKeys_iff _ _).2 ⟨p, mem_setAll_of_mem m ps p hp hk, rfl⟩
      · exact absurd h hk

theorem foldl_map_eq_setAll {X V : Type} (f : X → String × V) (l : List X) (m : GoMap V) :
    l.foldl (fun acc x => mapSet acc (f x).1 (f x).2) m = setAll m (l.map f) := by
  induction l generalizing m with
  | nil => rfl
  | cons x rest ih => simp only [List.foldl_cons, List.map_cons, setAll] at *; exact ih _

theorem foldl_filterMap_eq_setAll {X V : Type} (f : X → Option (String × V)) (l : List X)
    (m : GoMap V) :
    l.foldl (fun acc x => setOpt acc (f x)) m = setAll m (l.filterMap f) := by
  induction l generalizing m with
  | nil => rfl
  | cons x rest ih =>
    cases hx : f x with
    | none => simp only [List.foldl_cons, hx, List.filterMap_cons, setOpt]; exact ih _
    | some p =>
      simp only [List.foldl_cons, hx, List.filterMap_cons, setAll, setOpt]; exact ih _

theorem registerListedLanguage_eq (w : IndexWorld) (extID extDir : String) :
    registerListedLanguage w extID extDir = fun acc d =>
      mapSet acc (listedLanguageWrite w extID extDir d).1
        (listedLanguageWrite w extID extDir d).2 := rfl

theorem registerDetectedLanguage_eq (w : IndexWorld) (extID langsDir : String) :
    registerDetectedLanguage w extID langsDir = fun acc e =>
      setOpt acc (detectedLanguageWrite w extID langsDir e) := by
  funext acc e
  unfold registerDetectedLanguage detectedLanguageWrite setOpt
  cases e.IsDir <;> simp

theorem registerDetectedTheme_eq (extID : String) :
    registerDetectedTheme extID = fun acc e =>
      setOpt acc (detectedThemeWrite extID e) := by
  funext acc e
  unfold registerDetectedTheme detectedThemeWrite setOpt
  split <;> simp

theorem applyManifest_Languages (w : IndexWorld) (extID extDir : String)
    (manifest : ExtensionManifest) (idx : ExtensionIndex) :
    (applyManifest w extID extDir manifest idx).Languages =
      setAll idx.Languages (languageWrites w extID extDir manifest) := by
  unfold applyManifest languageWrites
  cases manifest.Languages with
  | some dirs =>
    simp only [registerListedLanguage_eq]
    exact foldl_map_eq_setAll _ _ _
  | none =>
    simp only
    cases w.readDir (filepathJoin [extDir, "languages"]) with
    | none => rfl
    | some entries =>
      simp only [registerDetectedLanguage_eq]
      exact foldl_filterMap_eq_setAll _ _ _

theorem applyManifest_Themes (w : IndexWorld) (extID extDir : String)
    (manifest : ExtensionManifest) (idx : ExtensionIndex) :
    (applyManifest w extID extDir manifest idx).Themes =
      setAll idx.Themes (themeWrites w extID extDir manifest) := by
  unfold applyManifest themeWrites
  cases manifest.Themes with
  | some ps =>
    exact foldl_map_eq_setAll
      (fun themePath => (themeName themePath,
        ({ Extension := extID, Path := themePath } : ExtensionIndexThemeEntry))) _ _
  | none =>
    simp only
    cases w.readDir (filepathJoin [extDir, "themes"]) with
    | none => rfl
    | some entries =>
      simp only [registerDetectedTheme_eq]
      exact foldl_filterMap_eq_setAll _ _ _

theorem applyManifest_Extensions (w : IndexWorld) (extID extDir : String)
    (manifest : ExtensionManifest) (idx : ExtensionIndex) :
    (applyManifest w extID extDir manifest idx).Extensions =
      mapSet idx.Extensions extID { Manifest := manifest, Dev := false } := rfl

theorem languageWrites_owner (w : IndexWorld) (extID extDir : String)
    (manifest : ExtensionManifest) :
    ∀ p ∈ languageWrites w extID extDir manifest, p.2.Extension = extID := by
  intro p hp
  unfold languageWrites at hp
  cases hl : manifest.Languages with
  | some dirs =>
    rw [hl] at hp
    simp only [List.mem_map] at hp
    obtain ⟨d, _, rfl⟩ := hp
    rfl
  | none =>
    rw [hl] at hp
    simp only at hp
    cases hr : w.readDir (filepathJoin [extDir, "languages"]) with
    | none => rw [hr] at hp; simp at hp
    | some entries =>
      rw [hr] at hp
      simp only [List.mem_filterMap] at hp
      obtain ⟨e, _, he⟩ := hp
      unfold detectedLanguageWrite at he
      split at he
      · simp only [Option.some.injEq] at he; rw [← he]
      · simp at he

theorem themeWrites_owner (w : IndexWorld) (extID extDir : String)
    (manifest : ExtensionManifest) :
    ∀ p ∈ themeWrites w extID extDir manifest, p.2.Extension = extID := by
  intro p hp
  unfold themeWrites at hp
  cases hl : manifest.Themes with
  | some ps =>
    rw [hl] at hp
    simp only [List.mem_map] at hp
    obtain ⟨d, _, rfl⟩ := hp
    rfl
  | none =>
    rw [hl] at hp
    simp only at hp
    cases hr : w.readDir (filepathJoin [extDir, "themes"]) with
    | none => rw [hr] at hp; simp at hp
    | some entries =>
      rw [hr] at hp
      simp only [List.mem_filterMap] at hp
      obtain ⟨e, _, he⟩ := hp
      unfold detectedThemeWrite at he
      split at he
      · simp only [Option.some.injEq] at he; rw [← he]
      · simp at he

theorem mem_mapKeys_mapSet {V : Type} (m : GoMap V) (j : String) (v : V) (k : String) :
    k ∈ mapKeys (mapSet m j v) ↔ k ∈ mapKeys m ∨ k = j := by
  have h := mem_mapKeys_setAll m [(j, v)] k
  simpa [setAll, mapKeys] using h

theorem mem_mapKeys_mapDelete {V : Type} (m : GoMap V) (j k : String) :
    k ∈ mapKeys (mapDelete m j) ↔ k ∈ mapKeys m ∧ k ≠ j := by
  simp only [mem_mapKeys_iff, mem_mapDelete]
  constructor
  · rintro ⟨p, ⟨hp, hne⟩, rfl⟩
    exact ⟨⟨p, hp, rfl⟩, hne⟩
  · rintro ⟨⟨p, hp, rfl⟩, hne⟩
    exact ⟨p, ⟨hp, hne⟩, rfl⟩

theorem UpdateIndexForExtension_ok (w : IndexWorld) (extID : String) (paths : ZedPaths)
    (idx : ExtensionIndex) (data : String) (manifest : ExtensionManifest)
    (hread : w.readFile (filepathJoin [filepathJoin [paths.Installed, extID],
      "extension.toml"]) = some data)
    (hdec : w.decodeManifest data = some manifest) :
    UpdateIndexForExtension w extID paths idx =
      .ok (applyManifest w extID (filepathJoin [paths.Installed, extID]) manifest idx) := by
  unfold UpdateIndexForExtension
  simp only [hread, hdec]

theorem UpdateIndexForExtension_eq_ok (w : IndexWorld) (extID : String) (paths : ZedPaths)
    (idx idx2 : ExtensionIndex) (h : UpdateIndexForExtension w extID paths idx = .ok idx2) :
    ∃ manifest, idx2 =
      applyManifest w extID (filepathJoin [paths.Installed, extID]) manifest idx := by
  unfold UpdateIndexForExtension at h
  simp only at h
  split at h
  · cases h
  · split at h
    · cases h
    · rename_i manifest _
      refine ⟨manifest, ?_⟩
      injection h with h
      exact h.symm

theorem invariant_setAll {V : Type} (owner : V → String) (extID : String)
    (exts : GoMap ExtensionIndexEntry) (e : ExtensionIndexEntry) (m ws : GoMap V)
    (hm : ∀ p ∈ m, owner p.2 ∈ mapKeys exts) (hw : ∀ p ∈ ws, owner p.2 = extID) :
    ∀ p ∈ setAll m ws, owner p.2 ∈ mapKeys (mapSet exts extID e) := by
  intro p hp
  rw [mem_mapKeys_mapSet]
  rcases mem_setAll m ws p hp with ⟨h, _⟩ | h
  · exact Or.inl (hm p h)
  · exact Or.inr (hw p h)

theorem invariant_rangeDeleteOwned {V : Type} (owner : V → String) (extID : String)
    (exts : GoMap ExtensionIndexEntry) (m : GoMap V)
    (hm : ∀ p ∈ m, owner p.2 ∈ mapKeys exts) :
    ∀ p ∈ rangeDeleteOwned owner extID m, owner p.2 ∈ mapKeys (mapDelete exts extID) := by
  intro p hp
  rw [mem_mapKeys_mapDelete]
  exact ⟨hm p ((mem_rangeDeleteOwned owner extID m p).1 hp).1,
    owner_ne_of_mem_rangeDeleteOwned owner extID m p hp⟩

theorem reinstall_sameKeys_iff {V : Type} (owner : V → String) (extID : String)
    (t0 ws : GoMap V) :
    sameKeys (setAll (rangeDeleteOwned owner extID (setAll t0 ws)) ws) (setAll t0 ws) ↔
      ∀ p ∈ t0, owner p.2 = extID → p.1 ∈ mapKeys ws := by
  unfold sameKeys
  constructor
  · rintro ⟨_, h21⟩ p hp ho
    by_contra hk
    have hp1 : p ∈ setAll t0 ws := mem_setAll_of_mem t0 ws p hp hk
    have hk1 : p.1 ∈ mapKeys (setAll t0 ws) := (mem_mapKeys_iff _ _).2 ⟨p, hp1, rfl⟩
    rcases (mem_mapKeys_setAll _ _ _).1 (h21 hk1) with hr | hw
    · obtain ⟨r, hr, hrk⟩ := (mem_mapKeys_iff _ _).1 hr
      exact ((mem_rangeDeleteOwned owner extID _ r).1 hr).2 p hp1 ho hrk
    · exact hk hw
  · intro h
    constructor
    · intro k hk
      rcases (mem_mapKeys_setAll _ _ _).1 hk with hr | hw
      · obtain ⟨r, hr, hrk⟩ := (mem_mapKeys_iff _ _).1 hr
        exact (mem_mapKeys_iff _ _).2 ⟨r, ((mem_rangeDeleteOwned owner extID _ r).1 hr).1, hrk⟩
      · exact (mem_mapKeys_setAll _ _ _).2 (Or.inr hw)
    · intro k hk
      by_cases hw : k ∈ mapKeys ws
      · exact (mem_mapKeys_setAll _ _ _).2 (Or.inr hw)
      · rcases (mem_mapKeys_setAll _ _ _).1 hk with h0 | h0
        · obtain ⟨p, hp, rfl⟩ := (mem_mapKeys_iff _ _).1 h0
          refine (mem_mapKeys_setAll _ _ _).2 (Or.inl ((mem_mapKeys_iff _ _).2 ⟨p, ?_, rfl⟩))
          rw [mem_rangeDeleteOwned]
          refine ⟨mem_setAll_of_mem t0 ws p hp hw, ?_⟩
          intro q hq hqo hpq
          rcases mem_setAll t0 ws q hq with ⟨hq0, hqk⟩ | hqw
          · exact hqk (h q hq0 hqo)
          · exact hw (hpq ▸ (mem_mapKeys_iff _ _).2 ⟨q, hqw, rfl⟩)
        · exact absurd h0 hw

theorem listedLanguageWrite_key (w : IndexWorld) (extID extDir langDir : String) :
    (listedLanguageWrite w extID extDir langDir).1 = specLanguageKey w extDir langDir := by
  unfold listedLanguageWrite specLanguageKey readLanguageName
  cases hr : w.readFile (filepathJoin [extDir, langDir, "config.toml"]) with
  | none => simp
  | some data =>
    simp only
    cases hd : w.decodeLanguageConfig data <;> simp

theorem RemoveFromIndex_Themes (extID : String) (idx : ExtensionIndex) :
    (RemoveFromIndex extID idx).Themes =
      rangeDeleteOwned ExtensionIndexThemeEntry.Extension extID idx.Themes := rfl

theorem RemoveFromIndex_Languages (extID : String) (idx : ExtensionIndex) :
    (RemoveFromIndex extID idx).Languages =
      rangeDeleteOwned ExtensionIndexLangEntry.Extension extID idx.Languages := rfl

/-! ## Lemmas on the registry client -/

theorem findByID_eq_none_iff (id : String) (results : List ExtensionInfo) :
    findByID id results = none ↔ ∀ r ∈ results, r.ID ≠ id := by
  induction results with
  | nil => simp [findByID]
  | cons r rest ih =>
    by_cases h : r.ID = id
    · simp [findByID, h]
    · simp [findByID, h, ih]

theorem findByID_eq_some_iff (id : String) (results : List ExtensionInfo) (ext : ExtensionInfo) :
    findByID id results = some ext ↔
      ∃ pre post, results = pre ++ ext :: post ∧ (∀ r ∈ pre, r.ID ≠ id) ∧ ext.ID = id := by
  induction results with
  | nil => simp [findByID]
  | cons r rest ih =>
    by_cases h : r.ID = id
    · simp only [findByID, h, if_true, Option.some.injEq]
      constructor
      · rintro rfl
        exact ⟨[], rest, rfl, by simp, h⟩
      · rintro ⟨pre, post, heq, hpre, _⟩
        cases pre with
        | nil =>
          simp only [List.nil_append, List.cons.injEq] at heq
          exact heq.1
        | cons q pre2 =>
          simp only [List.cons_append, List.cons.injEq] at heq
          exact absurd (heq.1 ▸ h) (hpre q (by simp))
    · simp only [findByID, h, if_false, ih]
      constructor
      · rintro ⟨pre, post, heq, hpre, hid⟩
        refine ⟨r :: pre, post, by simp [heq], ?_, hid⟩
        intro q hq
        rcases List.mem_cons.1 hq with rfl | hq
        · exact h
        · exact hpre q hq
      · rintro ⟨pre, post, heq, hpre, hid⟩
        cases pre with
        | nil =>
          simp only [List.nil_append, List.cons.injEq] at heq
          exact absurd (heq.1 ▸ hid) h
        | cons q pre2 =>
          simp only [List.cons_append, List.cons.injEq] at heq
          exact ⟨pre2, post, heq.2, fun x hx => hpre x (by simp [hx]), hid⟩

/-! ## Lemmas on the downloader -/

theorem downloadOnce_fst (a : AttemptWorld) (f : Option (List Nat)) :
    (downloadOnce a f).1 = attemptError a := by
  unfold attemptError downloadOnce
  cases a.get with
  | error e => rfl
  | ok resp =>
    simp only
    split
    · rfl
    · cases a.create with
      | some e => rfl
      | none => rfl

theorem downloadOnce_snd_of_fail (a : AttemptWorld) (f : Option (List Nat))
    (h : attemptError a ≠ none) :
    (downloadOnce a f).2 = fileAfterFail a f := by
  unfold attemptError at h
  unfold fileAfterFail
  unfold downloadOnce createsFile at *
  cases hg : a.get with
  | error e => simp
  | ok resp =>
    rw [hg] at h
    simp only at h ⊢
    by_cases hs : resp.StatusCode = 200
    · simp only [hs, ne_eq, not_true_eq_false, if_false, decide_True, Bool.true_and] at h ⊢
      cases hc : a.create with
      | some e => simp
      | none =>
        rw [hc] at h
        simp only at h ⊢
        cases hcp : a.copy.2 with
        | some e => simp
        | none =>
          rw [hcp] at h
          simp only at h ⊢
          split
          · simp
          · rename_i hne
            simp [hne] at h
    · simp [hs]

theorem downloadLoop_err (world : Nat → AttemptWorld) (n attempt : Nat)
    (lastErr : Option AttemptError) (file : Option (List Nat)) (trace : List DownloadEvent) :
    ((downloadLoop world n attempt lastErr file trace).err ≠ none ↔
      ∀ i, attempt ≤ i → i < attempt + n → attemptError (world i) ≠ none) ∧
    ((downloadLoop world n attempt lastErr file trace).err ≠ none →
      (downloadLoop world n attempt lastErr file trace).err =
        some (.exhausted maxRetries
          (if n = 0 then lastErr else attemptError (world (attempt + n - 1))))) := by
  induction n generalizing attempt lastErr file trace with
  | zero =>
    constructor
    · simp only [downloadLoop, ne_eq, reduceCtorEq, not_false_eq_true, true_iff]
      intro i h1 h2; omega
    · intro _; simp [downloadLoop]
  | succ n ih =>
    rw [downloadLoop]
    simp only [downloadOnce_fst]
    cases he : attemptError (world attempt) with
    | none =>
      simp only [ne_eq, not_true_eq_false, false_iff, not_forall, false_implies, and_true]
      exact ⟨attempt, le_refl _, by omega, by simp [he]⟩
    | some e =>
      simp only
      obtain ⟨ih1, ih2⟩ := ih (attempt + 1) (some e) (downloadOnce (world attempt) file).2
        ((if attempt > 0 then trace ++ [.sleep (backoffDelay attempt)] else trace) ++
          [.attempt attempt])
      constructor
      · rw [ih1]
        constructor
        · intro h i h1 h2
          by_cases hi : i = attempt
          · rw [hi, he]; simp
          · exact h i (by omega) (by omega)
        · intro h i h1 h2
          exact h i (by omega) (by omega)
      · intro h
        rw [ih2 h]
        by_cases hn : n = 0
        · subst hn; simp [he]
        · have e1 : attempt + 1 + n - 1 = attempt + (n + 1) - 1 := by omega
          simp [hn, e1]

theorem downloadLoop_file (world : Nat → AttemptWorld) (n attempt : Nat)
    (lastErr : Option AttemptError) (file : Option (List Nat)) (trace : List DownloadEvent)
    (hfail : ∀ i, attempt ≤ i → i < attempt + n → attemptError (world i) ≠ none) :
    (downloadLoop world n attempt lastErr file trace).file =
      (List.range' attempt n).foldl (fun f i => fileAfterFail (world i) f) file := by
  induction n generalizing attempt lastErr file trace with
  | zero => simp [downloadLoop]
  | succ n ih =>
    rw [downloadLoop]
    simp only [downloadOnce_fst]
    have hf0 := hfail attempt (le_refl _) (by omega)
    cases he : attemptError (world attempt) with
    | none => exact absurd he hf0
    | some e =>
      simp only
      rw [ih (attempt + 1) _ _ _ (fun i h1 h2 => hfail i (by omega) (by omega))]
      rw [downloadOnce_snd_of_fail _ _ hf0]
      simp [List.range'_succ]

theorem foldl_fileAfterFail_of_no_create (world : Nat → AttemptWorld) (l : List Nat)
    (file : Option (List Nat)) (h : ∀ i ∈ l, createsFile (world i) = false) :
    l.foldl (fun f i => fileAfterFail (world i) f) file = file := by
  induction l generalizing file with
  | nil => rfl
  | cons i rest ih =>
    rw [List.foldl_cons, ih _ (fun j hj => h j (by simp [hj]))]
    simp [fileAfterFail, h i (by simp)]

theorem foldl_fileAfterFail_last (world : Nat → AttemptWorld) (n attempt k : Nat)
    (file : Option (List Nat)) (h1 : attempt ≤ k) (h2 : k < attempt + n)
    (hk : createsFile (world k) = true)
    (hafter : ∀ i, k < i → i < attempt + n → createsFile (world i) = false) :
    (List.range' attempt n).foldl (fun f i => fileAfterFail (world i) f) file =
      afterRemove (world k) (world k).copy.1 := by
  induction n generalizing attempt file with
  | zero => omega
  | succ n ih =>
    rw [List.range'_succ, List.foldl_cons]
    by_cases hak : attempt = k
    · subst hak
      rw [foldl_fileAfterFail_of_no_create]
      · simp [fileAfterFail, hk]
      · intro i hi
        rw [List.mem_range'_1] at hi
        exact hafter i (by omega) (by omega)
    · exact ih (attempt + 1) _ (by omega) (by omega)
        (fun i hi1 hi2 => hafter i hi1 (by omega))

theorem foldl_fileAfterFail_of_remove (world : Nat → AttemptWorld) (l : List Nat)
    (file : Option (List Nat))
    (h : ∀ i ∈ l, createsFile (world i) = true → (world i).remove = none) :
    l.foldl (fun f i => fileAfterFail (world i) f) file =
      if l.any (fun i => createsFile (world i)) = true then none else file := by
  induction l generalizing file with
  | nil => simp
  | cons i rest ih =>
    rw [List.foldl_cons, ih _ (fun j hj => h j (by simp [hj]))]
    simp only [List.any_cons]
    by_cases hc : createsFile (world i) = true
    · have hr := h i (by simp) hc
      simp only [fileAfterFail, hc, if_true, afterRemove, hr, Bool.true_or]
      split <;> rfl
    · have hc2 : createsFile (world i) = false := by simpa using hc
      simp [fileAfterFail, hc2]

theorem downloadLoop_trace (world : Nat → AttemptWorld) (n attempt : Nat)
    (lastErr : Option AttemptError) (file : Option (List Nat)) :
    ∃ j, (0 < n → 0 < j) ∧ j ≤ n ∧
      (downloadLoop world n attempt lastErr file (schedule attempt)).trace =
        schedule (attempt + j) ∧
      ((downloadLoop world n attempt lastErr file (schedule attempt)).err = none →
        0 < j ∧ attemptError (world (attempt + j - 1)) = none) ∧
      (∀ i, attempt ≤ i → i + 1 < attempt + j → attemptError (world i) ≠ none) ∧
      ((downloadLoop world n attempt lastErr file (schedule attempt)).err ≠ none → j = n) := by
  induction n generalizing attempt lastErr file with
  | zero =>
    refine ⟨0, by simp, le_refl _, by simp [downloadLoop], by simp [downloadLoop], ?_, ?_⟩
    · intro i h1 h2; omega
    · intro _; rfl
  | succ n ih =>
    rw [downloadLoop]
    simp only [downloadOnce_fst]
    have hs : (if attempt > 0 then schedule attempt ++ [.sleep (backoffDelay attempt)]
        else schedule attempt) ++ [.attempt attempt] = schedule (attempt + 1) := by
      simp [schedule]
    rw [hs]
    cases he : attemptError (world attempt) with
    | none =>
      refine ⟨1, by simp, by omega, rfl, ?_, ?_, ?_⟩
      · intro _; simpa using he
      · intro i h1 h2; omega
      · intro h; simp at h
    | some e =>
      simp only
      obtain ⟨j, _, hj2, hj3, hj4, hj5, hj6⟩ :=
        ih (attempt + 1) (some e) (downloadOnce (world attempt) file).2
      refine ⟨j + 1, by simp, by omega, ?_, ?_, ?_, ?_⟩
      · rw [hj3]; congr 1; omega
      · intro h
        obtain ⟨h1, h2⟩ := hj4 h
        refine ⟨by omega, ?_⟩
        have e1 : attempt + (j + 1) - 1 = attempt + 1 + j - 1 := by omega
        rw [e1]; exact h2
      · intro i h1 h2
        by_cases hi : i = attempt
        · rw [hi, he]; simp
        · exact hj5 i (by omega) (by omega)
      · intro h
        rw [hj6 h]

theorem attemptsMade_schedule (n : Nat) : attemptsMade (schedule n) = List.range n := by
  induction n with
  | zero => rfl
  | succ n ih =>
    unfold schedule
    by_cases h : n > 0
    · simp only [h, if_true, attemptsMade, List.filterMap_append] at ih ⊢
      rw [ih]
      simp [List.range_succ]
    · simp only [h, if_false, attemptsMade, List.filterMap_append] at ih ⊢
      rw [ih]
      simp [List.range_succ]

theorem DownloadFile_trace (world : Nat → AttemptWorld) (file : Option (List Nat)) :
    ∃ j, 0 < j ∧ j ≤ maxRetries + 1 ∧ (DownloadFile world file).trace = schedule j ∧
      ((DownloadFile world file).err = none → attemptError (world (j - 1)) = none) ∧
      (∀ i, i + 1 < j → attemptError (world i) ≠ none) ∧
      ((DownloadFile world file).err ≠ none → j = maxRetries + 1) := by
  obtain ⟨j, h1, h2, h3, h4, h5, h6⟩ := downloadLoop_trace world (maxRetries + 1) 0 none file
  refine ⟨j, h1 (by simp), h2, ?_, ?_, ?_, ?_⟩
  · simpa [DownloadFile, schedule] using h3
  · intro h
    have := (h4 h).2
    simpa using this
  · intro i hi
    exact h5 i (Nat.zero_le _) (by omega)
  · exact h6

/-! ## Lemmas on paths -/

theorem splitSlash_head (cs : List Char) :
    ∃ s0 ss, splitSlash cs = s0 :: ss ∧ s0 <+: cs := by
  induction cs with
  | nil => exact ⟨[], [], rfl, List.prefix_refl _⟩
  | cons c cs ih =>
    obtain ⟨s0, ss, h, hp⟩ := ih
    by_cases hc : c = '/'
    · exact ⟨[], splitSlash cs, by simp [splitSlash, hc], List.nil_prefix⟩
    · refine ⟨c :: s0, ss, by simp [splitSlash, hc, h], ?_⟩
      obtain ⟨t, ht⟩ := hp
      exact ⟨t, by simp [← ht]⟩

theorem splitSlash_append_slash (a b : List Char) :
    splitSlash (a ++ '/' :: b) = splitSlash a ++ splitSlash b := by
  induction a with
  | nil => simp [splitSlash]
  | cons c a ih =>
    by_cases hc : c = '/'
    · simp [splitSlash, hc, ih]
    · obtain ⟨s0, ss, h, _⟩ := splitSlash_head a
      simp [splitSlash, hc, ih, h]

theorem infix_of_mem_splitSlash (cs s : List Char) (h : s ∈ splitSlash cs) : s <:+: cs := by
  induction cs with
  | nil =>
    simp only [splitSlash, List.mem_singleton] at h
    rw [h]
  | cons c cs ih =>
    by_cases hc : c = '/'
    · simp only [splitSlash, hc, if_true, List.mem_cons] at h
      rcases h with h | h
      · rw [h]; exact List.nil_infix
      · exact (ih h).trans (List.suffix_cons c cs).isInfix
    · obtain ⟨s0, ss, h0, hp⟩ := splitSlash_head cs
      simp only [splitSlash, hc, if_false, h0, List.mem_cons] at h
      rcases h with h | h
      · rw [h]
        obtain ⟨t, ht⟩ := hp
        exact (List.IsPrefix.isInfix ⟨t, by simp [← ht]⟩)
      · exact (ih (by rw [h0]; exact List.mem_cons_of_mem _ h)).trans
          (List.suffix_cons c cs).isInfix

theorem foldl_cleanStep_of_no_dotdot (rooted : Bool) (segs stack : List (List Char))
    (h : ∀ s ∈ segs, s ≠ dotdot) :
    segs.foldl (cleanStep rooted) stack = (segs.filter realElem).reverse ++ stack := by
  induction segs generalizing stack with
  | nil => rfl
  | cons s rest ih =>
    have hs : s ≠ dotdot := h s (by simp)
    rw [List.foldl_cons, ih _ (fun x hx => h x (by simp [hx]))]
    by_cases h1 : s = [] ∨ s = ['.']
    · have hr : realElem s = false := by
        unfold realElem
        rcases h1 with h1 | h1 <;> simp [h1]
      simp [cleanStep, h1, List.filter_cons, hr]
    · have hr : realElem s = true := by
        unfold realElem
        simp only [not_or] at h1
        simp [h1.1, h1.2, hs]
      simp [cleanStep, h1, hs, List.filter_cons, hr]

theorem cleanElems_join (d n : List Char) (hd : d ≠ []) (hn : ¬ dotdot <:+: n) :
    cleanElems (d ++ '/' :: n) = cleanElems d ++ (splitSlash n).filter realElem := by
  have hhead : (d ++ '/' :: n).head? = d.head? := by
    cases d with
    | nil => exact absurd rfl hd
    | cons c d2 => rfl
  have hno : ∀ s ∈ splitSlash n, s ≠ dotdot := by
    intro s hs heq
    exact hn (heq ▸ infix_of_mem_splitSlash n s hs)
  unfold cleanElems
  rw [hhead, splitSlash_append_slash, List.foldl_append, foldl_cleanStep_of_no_dotdot _ _ _ hno]
  simp

theorem String_data_ne_nil (s : String) (h : s ≠ "") : s.data ≠ [] := by
  intro h2
  apply h
  cases s
  simp_all

theorem SafeTarget_of_clean (destDir name : String) (h1 : name ≠ ".")
    (h2 : stringsContains name ".." = false) :
    SafeTarget destDir (filepathJoin [destDir, name]) := by
  refine ⟨name, h1, h2, rfl, ?_⟩
  intro hd
  have hn : ¬ dotdot <:+: name.data := by
    unfold stringsContains at h2
    simpa [dotdot] using h2
  refine ⟨(splitSlash name.data).filter realElem, ?_, ?_⟩
  · intro e he
    exact (List.mem_filter.1 he).2
  · have hj : filepathJoin [destDir, name] =
        String.mk (cleanChars (destDir.data ++ '/' :: name.data)) := by
      unfold filepathJoin
      simp [List.dropWhile, hd, List.intercalate]
    rw [hj]
    have hhead : (destDir.data ++ '/' :: name.data).head? = destDir.data.head? := by
      cases hdd : destDir.data with
      | nil => exact absurd hdd (String_data_ne_nil destDir hd)
      | cons c d2 => rfl
    simp only [cleanChars, hhead,
      cleanElems_join destDir.data name.data (String_data_ne_nil destDir hd) hn]

/-! ## Lemmas on `filepath.Base` and `filepath.Ext` -/

theorem takeWhile_takeWhile_self {α : Type} (q : α → Bool) (l : List α) :
    (l.takeWhile q).takeWhile q = l.takeWhile q := by
  induction l with
  | nil => rfl
  | cons a l ih =>
    by_cases h : q a = true
    · simp [List.takeWhile_cons, h, ih]
    · simp [List.takeWhile_cons, h]

theorem lastElement_lastElement (cs : List Char) :
    lastElement (lastElement cs) = lastElement cs := by
  unfold lastElement
  rw [List.reverse_reverse, takeWhile_takeWhile_self]

theorem extChars_lastElement (cs : List Char) : extChars (lastElement cs) = extChars cs := by
  unfold extChars
  rw [lastElement_lastElement]

theorem baseChars_of_no_trailing_slash (cs : List Char) (h1 : cs ≠ [])
    (h2 : cs.getLast? ≠ some '/') : baseChars cs = lastElement cs := by
  obtain ⟨c, r, hr⟩ : ∃ c r, cs.reverse = c :: r := by
    cases hrev : cs.reverse with
    | nil => exact absurd (List.reverse_eq_nil_iff.1 hrev) h1
    | cons c r => exact ⟨c, r, rfl⟩
  have hc : c ≠ '/' := by
    intro hc
    apply h2
    rw [List.getLast?_eq_head?_reverse, hr, hc]
    rfl
  unfold baseChars stripTrailingSlashes lastElement
  simp [h1, hr, List.dropWhile_cons, List.takeWhile_cons, hc]

/-- On a path that is not empty and does not end in a separator, the extension
that `themeName` strips is the extension of the base name. -/
theorem themeName_eq_base_without_ext (themePath : String) (h1 : themePath ≠ "")
    (h2 : themePath.data.getLast? ≠ some '/') :
    themeName themePath = specThemeKey themePath := by
  unfold themeName specThemeKey filepathExt filepathBase
  have hb := baseChars_of_no_trailing_slash themePath.data
    (String_data_ne_nil themePath h1) h2
  simp only [hb, extChars_lastElement]

/-! ## Lemmas on the extractor -/

theorem extractEntries_append (w : ExtractWorld) (destDir : String)
    (pre rest : List (Except String Header)) (events : List FsEvent) :
    extractEntries w destDir (pre ++ rest) events =
      if (extractEntries w destDir pre events).err = none then
        extractEntries w destDir rest (extractEntries w destDir pre events).events
      else extractEntries w destDir pre events := by
  induction pre generalizing events with
  | nil => simp [extractEntries]
  | cons x pre ih =>
    cases x with
    | error e => simp [extractEntries]
    | ok header =>
      simp only [List.cons_append, extractEntries]
      split
      · exact ih _
      · split
        · simp
        · split
          · split
            · simp
            · exact ih _
          · split
            · simp
            · split
              · simp
              · split
                · simp
                · exact ih _
          · exact ih _

theorem extractEntries_safe (w : ExtractWorld) (destDir : String)
    (archive : List (Except String Header)) (events : List FsEvent)
    (h0 : ∀ e ∈ events, SafeEvent destDir e) :
    ∀ e ∈ (extractEntries w destDir archive events).events, SafeEvent destDir e := by
  induction archive generalizing events with
  | nil => simpa [extractEntries] using h0
  | cons x rest ih =>
    cases x with
    | error e => simpa [extractEntries] using h0
    | ok header =>
      simp only [extractEntries]
      split
      · exact ih _ h0
      · rename_i hdot
        split
        · exact h0
        · rename_i hcontains
          have hsafe : SafeTarget destDir
              (filepathJoin [destDir, filepathClean header.Name]) :=
            SafeTarget_of_clean destDir _ hdot (by simpa using hcontains)
          have hdir : ∀ e ∈ events ++ [FsEvent.mkdirAll
              (filepathJoin [destDir, filepathClean header.Name])], SafeEvent destDir e := by
            intro e he
            rcases List.mem_append.1 he with he | he
            · exact h0 e he
            · rw [List.mem_singleton.1 he]
              exact ⟨_, hsafe, Or.inl rfl⟩
          have hreg1 : ∀ e ∈ events ++ [FsEvent.mkdirAll
              (filepathDir (filepathJoin [destDir, filepathClean header.Name]))],
              SafeEvent destDir e := by
            intro e he
            rcases List.mem_append.1 he with he | he
            · exact h0 e he
            · rw [List.mem_singleton.1 he]
              exact ⟨_, hsafe, Or.inr rfl⟩
          have hreg2 : ∀ e ∈ (events ++ [FsEvent.mkdirAll
              (filepathDir (filepathJoin [destDir, filepathClean header.Name]))]) ++
              [FsEvent.openFile (filepathJoin [destDir, filepathClean header.Name])
                header.Mode], SafeEvent destDir e := by
            intro e he
            rcases List.mem_append.1 he with he | he
            · exact hreg1 e he
            · rw [List.mem_singleton.1 he]
              exact ⟨_, hsafe, Or.inl rfl⟩
          have hreg3 : ∀ e ∈ ((events ++ [FsEvent.mkdirAll
              (filepathDir (filepathJoin [destDir, filepathClean header.Name]))]) ++
              [FsEvent.openFile (filepathJoin [destDir, filepathClean header.Name])
                header.Mode]) ++
              [FsEvent.copy (filepathJoin [destDir, filepathClean header.Name])],
              SafeEvent destDir e := by
            intro e he
            rcases List.mem_append.1 he with he | he
            · exact hreg2 e he
            · rw [List.mem_singleton.1 he]
              exact ⟨_, hsafe, Or.inl rfl⟩
          split
          · split
            · exact hdir
            · exact ih _ hdir
          · split
            · exact hreg1
            · split
              · exact hreg2
              · split
                · exact hreg3
                · exact ih _ hreg3
          · exact ih _ h0

theorem extractEntries_traversal (w : ExtractWorld) (destDir : String) (header : Header)
    (rest : List (Except String Header)) (events : List FsEvent)
    (htrav : dotdot ∈ splitSlash (filepathClean header.Name).data) :
    extractEntries w destDir (.ok header :: rest) events =
      { err := some (.invalidPath (filepathClean header.Name)), events := events } := by
  have hinfix := infix_of_mem_splitSlash _ _ htrav
  have hdot : filepathClean header.Name ≠ "." := by
    intro h
    rw [h] at htrav
    revert htrav
    decide
  have hc : stringsContains (filepathClean header.Name) ".." = true := by
    unfold stringsContains
    simpa [dotdot] using hinfix
  simp [extractEntries, hdot, hc]

/-! ## Theorems -/

/-- C1: after `RemoveFromIndex extID idx` the extensions map has no key
`extID`, and no entry of the themes map or of the languages map is owned by
`extID`. -/
theorem RemoveFromIndex_removes_extension_and_owned (extID : String) (idx : ExtensionIndex) :
    mapGet (RemoveFromIndex extID idx).Extensions extID = none ∧
    extID ∉ mapKeys (RemoveFromIndex extID idx).Extensions ∧
    (∀ p ∈ (RemoveFromIndex extID idx).Themes, p.2.Extension ≠ extID) ∧
    (∀ p ∈ (RemoveFromIndex extID idx).Languages, p.2.Extension ≠ extID) := by
  refine ⟨mapGet_mapDelete_self _ _, ?_, ?_, ?_⟩
  · intro hk
    have := (mapGet_isSome_iff (RemoveFromIndex extID idx).Extensions extID).2 hk
    have h0 : mapGet (RemoveFromIndex extID idx).Extensions extID = none :=
      mapGet_mapDelete_self _ _
    rw [h0] at this
    simp at this
  · intro p hp
    exact owner_ne_of_mem_rangeDeleteOwned _ extID idx.Themes p hp
  · intro p hp
    exact owner_ne_of_mem_rangeDeleteOwned _ extID idx.Languages p hp


/-- C6 (as stated, refuted): on `staleIndex`, whose theme `old` and language
`Old` are owned by `foo` and are not shipped by the installed version,
remove-then-reinstall of `foo` does not give back the key sets of the index
after the first install. -/
theorem reinstall_keys_counterexample :
    ∃ i1 i2, UpdateIndexForExtension fooWorld "foo" samplePaths staleIndex = .ok i1 ∧
      UpdateIndexForExtension fooWorld "foo" samplePaths (RemoveFromIndex "foo" i1) = .ok i2 ∧
      IndexInvariant staleIndex ∧ IsGoMap staleIndex.Themes ∧ IsGoMap staleIndex.Languages ∧
      mapKeys i1.Themes = ["old", "foo"] ∧ mapKeys i2.Themes = ["foo"] ∧
      mapKeys i1.Languages = ["Old", "foo"] ∧ mapKeys i2.Languages = ["foo"] ∧
      ¬ sameKeys i2.Themes i1.Themes ∧ ¬ sameKeys i2.Languages i1.Languages := by
  refine ⟨_, _, rfl, rfl, ?_, ?_, ?_, ?_, ?_, ?_, ?_, ?_, ?_⟩ <;> decide

/-- C6 (amended): with the manifest and files held fixed, let `i1` be the index
after `UpdateIndexForExtension extID`. Then `RemoveFromIndex extID` followed
by `UpdateIndexForExtension extID` succeeds, and the resulting themes
(languages) key set equals that of `i1` exactly when every theme (language)
entry of the original index that is owned by `extID` has a key that the
install writes. -/
theorem reinstall_keys_iff (w : IndexWorld) (extID : String) (paths : ZedPaths)
    (idx : ExtensionIndex) (data : String) (manifest : ExtensionManifest)
    (hread : w.readFile (filepathJoin [filepathJoin [paths.Installed, extID],
      "extension.toml"]) = some data)
    (hdec : w.decodeManifest data = some manifest) :
    ∃ i1 i2, UpdateIndexForExtension w extID paths idx = .ok i1 ∧
      UpdateIndexForExtension w extID paths (RemoveFromIndex extID i1) = .ok i2 ∧
      (sameKeys i2.Themes i1.Themes ↔
        ∀ p ∈ idx.Themes, p.2.Extension = extID →
          p.1 ∈ mapKeys (themeWrites w extID (filepathJoin [paths.Installed, extID]) manifest)) ∧
      (sameKeys i2.Languages i1.Languages ↔
        ∀ p ∈ idx.Languages, p.2.Extension = extID →
          p.1 ∈ mapKeys
            (languageWrites w extID (filepathJoin [paths.Installed, extID]) manifest)) := by
  refine ⟨_, _, UpdateIndexForExtension_ok w extID paths idx data manifest hread hdec,
    UpdateIndexForExtension_ok w extID paths _ data manifest hread hdec, ?_, ?_⟩
  · rw [applyManifest_Themes, RemoveFromIndex_Themes, applyManifest_Themes]
    exact reinstall_sameKeys_iff ExtensionIndexThemeEntry.Extension extID _ _
  · rw [applyManifest_Languages, RemoveFromIndex_Languages, applyManifest_Languages]
    exact reinstall_sameKeys_iff ExtensionIndexLangEntry.Extension extID _ _

/-- C6 (amended), at an input: reinstalling `foo` into the empty index. -/
theorem reinstall_keys_iff_witness :
    ∃ i1 i2, UpdateIndexForExtension fooWorld "foo" samplePaths newEmptyIndex = .ok i1 ∧
      UpdateIndexForExtension fooWorld "foo" samplePaths (RemoveFromIndex "foo" i1) = .ok i2 ∧
      (sameKeys i2.Themes i1.Themes ↔
        ∀ p ∈ newEmptyIndex.Themes, p.2.Extension = "foo" →
          p.1 ∈ mapKeys (themeWrites fooWorld "foo"
            (filepathJoin [samplePaths.Installed, "foo"]) fooManifest)) ∧
      (sameKeys i2.Languages i1.Languages ↔
        ∀ p ∈ newEmptyIndex.Languages, p.2.Extension = "foo" →
          p.1 ∈ mapKeys (languageWrites fooWorld "foo"
            (filepathJoin [samplePaths.Installed, "foo"]) fooManifest)) :=
  reinstall_keys_iff fooWorld "foo" samplePaths newEmptyIndex "foo-toml" fooManifest
    (by decide) (by decide)

/-- C7: the invariant "every theme entry and every language entry is owned by a
key of the extensions map" is preserved by a successful
`UpdateIndexForExtension` and by `RemoveFromIndex`, for every extension ID. -/
theorem IndexInvariant_preserved (w : IndexWorld) (extID : String) (paths : ZedPaths)
    (idx : ExtensionIndex) (h : IndexInvariant idx) :
    (∀ idx2, UpdateIndexForExtension w extID paths idx = .ok idx2 → IndexInvariant idx2) ∧
    IndexInvariant (RemoveFromIndex extID idx) := by
  constructor
  · intro idx2 h2
    obtain ⟨manifest, rfl⟩ := UpdateIndexForExtension_eq_ok w extID paths idx idx2 h2
    constructor
    · rw [applyManifest_Themes, applyManifest_Extensions]
      exact invariant_setAll ExtensionIndexThemeEntry.Extension extID _ _ _ _ h.1
        (themeWrites_owner w extID _ manifest)
    · rw [applyManifest_Languages, applyManifest_Extensions]
      exact invariant_setAll ExtensionIndexLangEntry.Extension extID _ _ _ _ h.2
        (languageWrites_owner w extID _ manifest)
  · constructor
    · exact invariant_rangeDeleteOwned ExtensionIndexThemeEntry.Extension extID _ _ h.1
    · exact invariant_rangeDeleteOwned ExtensionIndexLangEntry.Extension extID _ _ h.2

/-- C7, at an input: `staleIndex` satisfies the invariant, installing `foo`
over it succeeds and keeps the invariant, and so does removing `foo`. -/
theorem IndexInvariant_preserved_witness :
    IndexInvariant staleIndex ∧
    (∃ idx2, UpdateIndexForExtension fooWorld "foo" samplePaths staleIndex = .ok idx2 ∧
      IndexInvariant idx2) ∧
    IndexInvariant (RemoveFromIndex "foo" staleIndex) :=
  ⟨by decide,
    ⟨_, rfl, (IndexInvariant_preserved fooWorld "foo" samplePaths staleIndex (by decide)).1 _ rfl⟩,
    (IndexInvariant_preserved fooWorld "foo" samplePaths staleIndex (by decide)).2⟩

/-- C8 (as stated, refuted): a manifest that lists the theme path
`themes/foo.json/` is registered under the key `foo.json`, and the key `foo`,
the base filename with its extension stripped, is not in the themes map. -/
theorem UpdateIndexForExtension_theme_key_counterexample :
    ∃ idx2, UpdateIndexForExtension slashWorld "foo" samplePaths newEmptyIndex = .ok idx2 ∧
      slashManifest.Themes = some ["themes/foo.json/"] ∧
      filepathBase "themes/foo.json/" = "foo.json" ∧
      specThemeKey "themes/foo.json/" = "foo" ∧
      mapGet idx2.Themes (specThemeKey "themes/foo.json/") = none ∧
      mapKeys idx2.Themes = ["foo.json"] := by
  refine ⟨_, rfl, rfl, ?_, ?_, ?_, ?_⟩ <;> decide

/-- C8 (amended): when the manifest of `extID` is readable and parseable and lists both
languages and themes, `UpdateIndexForExtension extID` succeeds and in the
resulting index `extensions[extID]` is the manifest with `dev = false`; every
listed theme path `p` has the key
`strings.TrimSuffix(filepath.Base(p), filepath.Ext(p))` in the themes map,
with an entry owned by `extID`, and this key is the base name of `p` without
the extension of that base name whenever `p` is not empty and does not end
in a separator; and every listed language directory has the
key "name from its `config.toml` if present, parseable and non-empty,
otherwise its base name" in the languages map, with an entry owned by
`extID`. -/
theorem UpdateIndexForExtension_registers (w : IndexWorld) (extID : String) (paths : ZedPaths)
    (idx : ExtensionIndex) (data : String) (manifest : ExtensionManifest)
    (langs themes : List String)
    (hread : w.readFile (filepathJoin [filepathJoin [paths.Installed, extID],
      "extension.toml"]) = some data)
    (hdec : w.decodeManifest data = some manifest)
    (hl : manifest.Languages = some langs) (ht : manifest.Themes = some themes) :
    ∃ idx2, UpdateIndexForExtension w extID paths idx = .ok idx2 ∧
      mapGet idx2.Extensions extID = some { Manifest := manifest, Dev := false } ∧
      (∀ p ∈ themes, ∃ e, mapGet idx2.Themes (themeName p) = some e ∧ e.Extension = extID) ∧
      (∀ p ∈ themes, p ≠ "" → p.data.getLast? ≠ some '/' →
        themeName p = specThemeKey p) ∧
      (∀ d ∈ langs, ∃ e,
        mapGet idx2.Languages
          (specLanguageKey w (filepathJoin [paths.Installed, extID]) d) = some e ∧
        e.Extension = extID) := by
  refine ⟨_, UpdateIndexForExtension_ok w extID paths idx data manifest hread hdec,
    ?_, ?_, fun p _ h1 h2 => themeName_eq_base_without_ext p h1 h2, ?_⟩
  · rw [applyManifest_Extensions]
    exact mapGet_mapSet_self _ _ _
  · intro p hp
    rw [applyManifest_Themes]
    have hk : themeName p ∈
        mapKeys (themeWrites w extID (filepathJoin [paths.Installed, extID]) manifest) := by
      unfold themeWrites
      rw [ht]
      simp only [mapKeys, List.map_map, List.mem_map]
      exact ⟨p, hp, rfl⟩
    obtain ⟨v, hv, hg⟩ := mapGet_setAll_of_key idx.Themes _ _ hk
    exact ⟨v, hg, themeWrites_owner w extID _ manifest _ hv⟩
  · intro d hd
    rw [applyManifest_Languages]
    have hk : specLanguageKey w (filepathJoin [paths.Installed, extID]) d ∈
        mapKeys (languageWrites w extID (filepathJoin [paths.Installed, extID]) manifest) := by
      unfold languageWrites
      rw [hl]
      simp only [mapKeys, List.map_map, List.mem_map]
      exact ⟨d, hd, listedLanguageWrite_key w extID _ d⟩
    obtain ⟨v, hv, hg⟩ := mapGet_setAll_of_key idx.Languages _ _ hk
    exact ⟨v, hg, languageWrites_owner w extID _ manifest _ hv⟩

/-- C8 (amended), at the input of the scenario: the empty index, extension `foo` version
`1.0.0` listing `languages/foo` and `themes/foo.json`. -/
theorem UpdateIndexForExtension_registers_witness :
    ∃ idx2, UpdateIndexForExtension fooWorld "foo" samplePaths newEmptyIndex = .ok idx2 ∧
      (mapGet idx2.Extensions "foo").map (fun e => e.Manifest.Version) = some "1.0.0" ∧
      (mapGet idx2.Themes "foo").map (fun e => e.Extension) = some "foo" ∧
      (mapGet idx2.Languages "foo").map (fun e => e.Extension) = some "foo" := by
  obtain ⟨idx2, h, he, hthemes, _, hlangs⟩ :=
    UpdateIndexForExtension_registers fooWorld "foo" samplePaths newEmptyIndex "foo-toml"
      fooManifest ["languages/foo"] ["themes/foo.json"] (by decide) (by decide) rfl rfl
  refine ⟨idx2, h, ?_, ?_, ?_⟩
  · rw [he]; rfl
  · obtain ⟨e, h1, h2⟩ := hthemes "themes/foo.json" (by simp)
    have hk : themeName "themes/foo.json" = "foo" := by decide
    rw [hk] at h1
    rw [h1]; simp [h2]
  · obtain ⟨e, h1, h2⟩ := hlangs "languages/foo" (by simp)
    have hk : specLanguageKey fooWorld (filepathJoin [samplePaths.Installed, "foo"])
        "languages/foo" = "foo" := by decide
    rw [hk] at h1
    rw [h1]; simp [h2]

/-- C3: if every attempt fails, `DownloadFile` calls `downloadOnce` exactly 6
times (attempts 0 to 5) and returns the error "failed after 5 retries"
wrapping the last error; if attempt `k` is the first to succeed, it returns
success, the attempts made are exactly 0 to `k`, and the call of attempt `k`
is the last thing it does. -/
theorem DownloadFile_attempts (world : Nat → AttemptWorld) (file : Option (List Nat)) :
    ((∀ i, i ≤ maxRetries → attemptError (world i) ≠ none) →
      attemptsMade (DownloadFile world file).trace = [0, 1, 2, 3, 4, 5] ∧
      (attemptsMade (DownloadFile world file).trace).length = 6 ∧
      (DownloadFile world file).err =
        some (.exhausted 5 (attemptError (world 5)))) ∧
    (∀ k, k ≤ maxRetries → (∀ i, i < k → attemptError (world i) ≠ none) →
      attemptError (world k) = none →
      (DownloadFile world file).err = none ∧
      attemptsMade (DownloadFile world file).trace = List.range (k + 1) ∧
      (DownloadFile world file).trace.getLast? = some (.attempt k)) := by
  obtain ⟨j, hj1, hj2, hj3, hj4, hj5, hj6⟩ := DownloadFile_trace world file
  have herr := downloadLoop_err world (maxRetries + 1) 0 none file []
  constructor
  · intro hfail
    have hne : (DownloadFile world file).err ≠ none :=
      herr.1.2 (fun i _ h2 => hfail i (by omega))
    have hj : j = maxRetries + 1 := hj6 hne
    rw [hj3, hj, attemptsMade_schedule]
    refine ⟨by decide, by decide, ?_⟩
    have := herr.2 hne
    simpa [DownloadFile, maxRetries] using this
  · intro k hk hbefore hsucc
    have hnone : (DownloadFile world file).err = none := by
      by_contra hne
      exact herr.1.1 hne k (Nat.zero_le _) (by omega) hsucc
    have hjk : j = k + 1 := by
      have h1 := hj4 hnone
      by_contra hne
      rcases Nat.lt_or_gt_of_ne hne with hlt | hgt
      · exact hbefore (j - 1) (by omega) h1
      · exact hj5 k (by omega) hsucc
    refine ⟨hnone, ?_, ?_⟩
    · rw [hj3, hjk, attemptsMade_schedule]
    · rw [hj3, hjk]
      unfold schedule
      simp

/-- C3, at two inputs: a server that never answers (6 attempts, then the
exhausted error) and one whose third answer is complete (3 attempts, then
success). -/
theorem DownloadFile_attempts_witness :
    (attemptsMade (DownloadFile (fun _ => requestFails) none).trace = [0, 1, 2, 3, 4, 5] ∧
      (attemptsMade (DownloadFile (fun _ => requestFails) none).trace).length = 6 ∧
      (DownloadFile (fun _ => requestFails) none).err =
        some (.exhausted 5 (attemptError requestFails))) ∧
    ((DownloadFile (fun n => if n < 2 then twoOfThree else threeBytes) none).err = none ∧
      attemptsMade (DownloadFile (fun n => if n < 2 then twoOfThree else threeBytes) none).trace =
        List.range (2 + 1) ∧
      (DownloadFile (fun n => if n < 2 then twoOfThree else threeBytes) none).trace.getLast? =
        some (.attempt 2)) :=
  ⟨(DownloadFile_attempts (fun _ => requestFails) none).1 (by intro i _; decide),
    (DownloadFile_attempts (fun n => if n < 2 then twoOfThree else threeBytes) none).2 2
      (by decide) (by intro i hi; interval_cases i <;> decide) (by decide)⟩

/-- C4 (as stated, refuted): a file that is at the destination before the call
is still there, unchanged, after `DownloadFile` has used up its retries on
request errors. -/
theorem DownloadFile_exhausted_counterexample :
    (DownloadFile (fun _ => requestFails) (some [9])).err =
        some (.exhausted 5 (some (.requestError "connection refused"))) ∧
      (DownloadFile (fun _ => requestFails) (some [9])).file = some [9] := by
  decide

/-- C4 (amended): when `DownloadFile` returns the exhausted error, the file at
the destination is decided as follows. If no attempt got as far as creating
it (each failed with a request error, a non-200 status or a file-creation
error), it is as it was before the call, so a file that was there is still
there. Otherwise the last attempt that created it decides: the file is gone
when the `os.Remove` of that attempt succeeded, and holds the bytes that
attempt wrote when it was refused. In particular, when no `os.Remove` is
refused, the file is absent afterwards if and only if it was absent before
the call or some attempt created it, and a file that is there afterwards is
the one from before the call. -/
theorem DownloadFile_exhausted_file (world : Nat → AttemptWorld) (file : Option (List Nat))
    (hex : (DownloadFile world file).err ≠ none) :
    ((∀ i, i ≤ maxRetries → createsFile (world i) = false) →
      (DownloadFile world file).file = file) ∧
    (∀ k, k ≤ maxRetries → createsFile (world k) = true →
      (∀ i, k < i → i ≤ maxRetries → createsFile (world i) = false) →
      (DownloadFile world file).file = afterRemove (world k) (world k).copy.1 ∧
      ((world k).remove = none → (DownloadFile world file).file = none) ∧
      ((world k).remove ≠ none → (DownloadFile world file).file = some (world k).copy.1)) ∧
    ((∀ i, i ≤ maxRetries → createsFile (world i) = true → (world i).remove = none) →
      ((DownloadFile world file).file = none ↔
        file = none ∨ ∃ i, i ≤ maxRetries ∧ createsFile (world i) = true) ∧
      ((DownloadFile world file).file ≠ none → (DownloadFile world file).file = file)) := by
  have herr := downloadLoop_err world (maxRetries + 1) 0 none file []
  have hfail := herr.1.1 hex
  have hfile : (DownloadFile world file).file =
      (List.range' 0 (maxRetries + 1)).foldl (fun f i => fileAfterFail (world i) f) file :=
    downloadLoop_file world (maxRetries + 1) 0 none file [] hfail
  refine ⟨?_, ?_, ?_⟩
  · intro hno
    rw [hfile]
    apply foldl_fileAfterFail_of_no_create
    intro i hi
    rw [List.mem_range'_1] at hi
    exact hno i (by omega)
  · intro k hk hc hafter
    have hlast : (DownloadFile world file).file = afterRemove (world k) (world k).copy.1 := by
      rw [hfile]
      exact foldl_fileAfterFail_last world (maxRetries + 1) 0 k file (Nat.zero_le _) (by omega)
        hc (fun i h1 h2 => hafter i h1 (by omega))
    refine ⟨hlast, ?_, ?_⟩
    · intro hr
      rw [hlast]
      simp [afterRemove, hr]
    · intro hr
      rw [hlast]
      unfold afterRemove
      cases hrm : (world k).remove with
      | none => exact absurd hrm hr
      | some e => rfl
  · intro hrm
    have hfile2 : (DownloadFile world file).file =
        if (List.range' 0 (maxRetries + 1)).any (fun i => createsFile (world i)) = true
        then none else file := by
      rw [hfile]
      apply foldl_fileAfterFail_of_remove
      intro i hi
      rw [List.mem_range'_1] at hi
      exact hrm i (by omega)
    have hiff : (List.range' 0 (maxRetries + 1)).any (fun i => createsFile (world i)) = true ↔
        ∃ i, i ≤ maxRetries ∧ createsFile (world i) = true := by
      simp only [List.any_eq_true, List.mem_range'_1]
      constructor
      · rintro ⟨i, ⟨_, hi⟩, hc⟩
        exact ⟨i, by omega, hc⟩
      · rintro ⟨i, hi, hc⟩
        exact ⟨i, ⟨Nat.zero_le _, by omega⟩, hc⟩
    rw [hfile2]
    by_cases hc : (List.range' 0 (maxRetries + 1)).any (fun i => createsFile (world i)) = true
    · simp only [hc, if_true, true_iff, ne_eq, not_true_eq_false, false_implies, and_true]
      exact Or.inr (hiff.1 hc)
    · rw [if_neg hc]
      refine ⟨?_, fun _ => rfl⟩
      constructor
      · intro h; exact Or.inl h
      · rintro (h | h)
        · exact h
        · exact absurd (hiff.2 h) hc

/-- C4 (amended), at two inputs: six incomplete downloads with no file before
the call leave no file when the file can be removed, and leave the two bytes
of the last attempt when it cannot. -/
theorem DownloadFile_exhausted_file_witness :
    (DownloadFile (fun _ => twoOfThree) none).err ≠ none ∧
    (DownloadFile (fun _ => twoOfThree) none).file = none ∧
    (DownloadFile (fun _ => twoOfThreeStuck) none).err ≠ none ∧
    (DownloadFile (fun _ => twoOfThreeStuck) none).file = some [1, 2] :=
  ⟨by decide,
    ((DownloadFile_exhausted_file (fun _ => twoOfThree) none (by decide)).2.1 5
      (by decide) (by decide) (by intro i h1 h2; exact absurd h2 (by unfold maxRetries; omega))).2.1
      rfl,
    by decide,
    ((DownloadFile_exhausted_file (fun _ => twoOfThreeStuck) none (by decide)).2.1 5
      (by decide) (by decide) (by intro i h1 h2; exact absurd h2 (by unfold maxRetries; omega))).2.2
      (by decide)⟩

/-- C9: when the registry answers the query `id` with the list `results`,
`FindExtension id` returns the not-found error if and only if no record of
the list has an ID equal to `id`; otherwise it returns the first record of
the list whose ID equals `id`; so the ID of a returned record is `id`. -/
theorem FindExtension_exact (search : String → Except String (List ExtensionInfo))
    (id : String) (results : List ExtensionInfo) (h : search id = .ok results) :
    (FindExtension search id = .error (.notFound id) ↔ ∀ r ∈ results, r.ID ≠ id) ∧
    ((∃ r ∈ results, r.ID = id) → ∃ pre ext post,
      FindExtension search id = .ok ext ∧ results = pre ++ ext :: post ∧
      (∀ r ∈ pre, r.ID ≠ id) ∧ ext.ID = id) ∧
    (∀ ext, FindExtension search id = .ok ext → ext.ID = id ∧ ext ∈ results) := by
  unfold FindExtension
  rw [h]
  simp only
  cases hf : findByID id results with
  | none =>
    have hn := (findByID_eq_none_iff id results).1 hf
    refine ⟨by simpa using hn, ?_, ?_⟩
    · rintro ⟨r, hr, hid⟩
      exact absurd hid (hn r hr)
    · intro ext he; cases he
  | some ext0 =>
    obtain ⟨pre, post, heq, hpre, hid⟩ := (findByID_eq_some_iff id results ext0).1 hf
    refine ⟨?_, ?_, ?_⟩
    · simp only [reduceCtorEq, false_iff, not_forall]
      exact ⟨ext0, by simp [heq], by simp [hid]⟩
    · intro _
      exact ⟨pre, ext0, post, rfl, heq, hpre, hid⟩
    · intro ext he
      injection he with he
      subst he
      exact ⟨hid, by simp [heq]⟩

/-- C9, at an input: the query `fo` is answered with two records, neither with
the ID `fo`, and `FindExtension` returns the not-found error. -/
theorem FindExtension_exact_witness :
    sampleSearch "fo" = .ok [sampleInfo "foo-bar", sampleInfo "foobar"] ∧
    FindExtension sampleSearch "fo" = .error (.notFound "fo") :=
  ⟨rfl, (FindExtension_exact sampleSearch "fo" [sampleInfo "foo-bar", sampleInfo "foobar"]
    rfl).1.2 (by decide)⟩

/-- C10: the delay before retry `a`, for `1 ≤ a ≤ 5`, is
`min(2s * 2^(a-1), 30s)`, that is 2s, 4s, 8s, 16s, 30s; whenever
`DownloadFile` makes attempt `a`, the event just before it is a sleep of that
length; and attempt 0 is the first event, with no sleep before it. -/
theorem DownloadFile_backoff (world : Nat → AttemptWorld) (file : Option (List Nat)) (a : Nat)
    (h1 : 1 ≤ a) (h5 : a ≤ 5) :
    backoffDelay a = min (2 * second * 2 ^ (a - 1)) (30 * second) ∧
    [backoffDelay 1, backoffDelay 2, backoffDelay 3, backoffDelay 4, backoffDelay 5] =
      [2 * second, 4 * second, 8 * second, 16 * second, 30 * second] ∧
    (a ∈ attemptsMade (DownloadFile world file).trace →
      sleepBefore (DownloadFile world file).trace a =
        some (min (2 * second * 2 ^ (a - 1)) (30 * second))) ∧
    (DownloadFile world file).trace.head? = some (.attempt 0) ∧
    sleepBefore (DownloadFile world file).trace 0 = none := by
  obtain ⟨j, hj1, hj2, hj3, _, _, _⟩ := DownloadFile_trace world file
  rw [hj3]
  have hj6 : j ≤ 6 := hj2
  refine ⟨rfl, by decide, ?_, ?_, ?_⟩
  · interval_cases j <;> interval_cases a <;> decide
  · interval_cases j <;> decide
  · interval_cases j <;> decide

/-- C10, at an input: with a server that never answers, the sleep before the
fifth retry is 30 seconds. -/
theorem DownloadFile_backoff_witness :
    sleepBefore (DownloadFile (fun _ => requestFails) none).trace 5 = some (30 * second) :=
  (DownloadFile_backoff (fun _ => requestFails) none 5 (by decide) (by decide)).2.2.1
    (by decide)

/-- C2: when an entry of the archive has a cleaned name with a `..` element,
`ExtractTarGz` returns an error; it stops at that entry with the error
"invalid path in archive" and without any file-system call for it if the
entries before it went through, and otherwise stops where it would have
stopped without that entry; nothing after that entry is read. Every
file-system call made acts on a target `filepath.Join(destDir, name)`, or on the parent
directory of one, where `name` is a cleaned name that does not contain `..`,
and for a non-empty `destDir` the elements of the target are those of the
cleaned `destDir` followed by elements that are not `..`. -/
theorem ExtractTarGz_rejects_traversal (w : ExtractWorld) (destDir : String)
    (pre post : List (Except String Header)) (header : Header)
    (htrav : dotdot ∈ splitSlash (filepathClean header.Name).data) :
    (ExtractTarGz w (pre ++ .ok header :: post) destDir).err ≠ none ∧
    ((ExtractTarGz w pre destDir).err = none →
      ExtractTarGz w (pre ++ .ok header :: post) destDir =
        { err := some (.invalidPath (filepathClean header.Name)),
          events := (ExtractTarGz w pre destDir).events }) ∧
    ((ExtractTarGz w pre destDir).err ≠ none →
      ExtractTarGz w (pre ++ .ok header :: post) destDir = ExtractTarGz w pre destDir) ∧
    (∀ e ∈ (ExtractTarGz w (pre ++ .ok header :: post) destDir).events,
      ∃ target, SafeTarget destDir target ∧
        (e.path = target ∨ e.path = filepathDir target)) := by
  unfold ExtractTarGz
  cases w.openArchive with
  | some err => simp
  | none =>
    cases w.gzipReader with
    | some err => simp
    | none =>
      simp only
      have happ := extractEntries_append w destDir pre (.ok header :: post) []
      have htr := extractEntries_traversal w destDir header post
        (extractEntries w destDir pre []).events htrav
      have hsafe := extractEntries_safe w destDir (pre ++ .ok header :: post) []
        (by intro e he; simp at he)
      refine ⟨?_, ?_, ?_, hsafe⟩
      · rw [happ]
        split
        · rw [htr]; simp
        · assumption
      · intro h
        rw [happ, if_pos h, htr]
      · intro h
        rw [happ, if_neg h]

/-- C2, at an input: in `slipArchive` the second entry cleans to
`../../etc/passwd`; extraction stops there with the invalid-path error after
writing the first entry only, under the destination directory. -/
theorem ExtractTarGz_rejects_traversal_witness :
    dotdot ∈ splitSlash (filepathClean "themes/../../../etc/passwd").data ∧
    ExtractTarGz kindWorld slipArchive "/zed/installed/foo" =
      { err := some (.invalidPath "../../etc/passwd"),
        events := [.mkdirAll "/zed/installed/foo",
          .openFile "/zed/installed/foo/extension.toml" 420,
          .copy "/zed/installed/foo/extension.toml"] } :=
  ⟨by decide,
    (ExtractTarGz_rejects_traversal kindWorld "/zed/installed/foo"
      [.ok { Name := "./extension.toml", Typeflag := .TypeReg, Mode := 420 }]
      [.ok { Name := "themes/foo.json", Typeflag := .TypeReg, Mode := 420 }]
      { Name := "themes/../../../etc/passwd", Typeflag := .TypeReg, Mode := 420 }
      (by decide)).2.1 (by decide)⟩

/-- C5 (as stated, refuted): with an `index.json` that does not parse, the
install command and the remove command return a "load index" error although
`InstallExtension` and `RemoveExtension` have succeeded, and the success line
is not printed. -/
theorem commands_load_failure_counterexample :
    (sampleCmdWorld (.data "garbage") false).installExtension
        (overrideVersion (sampleInfo "foo") none) samplePaths = none ∧
      (sampleCmdWorld (.data "garbage") false).removeExtension "foo" samplePaths = none ∧
      installCmd (sampleCmdWorld (.data "garbage") false) "foo" none =
        { err := some (.loadIndex (.parseIndex "invalid character")),
          out := [.lookingUp "foo", .installing "foo" "1.0.0"] } ∧
      removeCmd (sampleCmdWorld (.data "garbage") false) "foo" =
        { err := some (.loadIndex (.parseIndex "invalid character")),
          out := [.removing "foo"] } := by
  decide

/-- C5 (amended): once `InstallExtension` (`RemoveExtension`) has succeeded and
`LoadIndex` has succeeded too, the install (remove) command returns success
whatever happens next: an error of `UpdateIndexForExtension` or of
`SaveIndex` is printed as a warning. An error of `LoadIndex` is returned by
the command as a "load index" error. -/
theorem commands_index_failures (w : CmdWorld) (extID : String) (versionArg : Option String)
    (paths : ZedPaths) (hp : w.getZedPaths = .ok paths) :
    (∀ found, FindExtension w.search extID = .ok found →
      w.installExtension (overrideVersion found versionArg) paths = none →
      (∀ err, LoadIndex w paths = .error err →
        (installCmd w extID versionArg).err = some (.loadIndex err)) ∧
      (∀ idx, LoadIndex w paths = .ok idx →
        (installCmd w extID versionArg).err = none ∧
        (∀ err, UpdateIndexForExtension w.files extID paths idx = .error err →
          .warningUpdateIndex err ∈ (installCmd w extID versionArg).out) ∧
        (∀ idx2 err, UpdateIndexForExtension w.files extID paths idx = .ok idx2 →
          SaveIndex w paths idx2 = some err →
          .warningSaveIndex err ∈ (installCmd w extID versionArg).out))) ∧
    (w.removeExtension extID paths = none →
      (∀ err, LoadIndex w paths = .error err →
        (removeCmd w extID).err = some (.loadIndex err)) ∧
      (∀ idx, LoadIndex w paths = .ok idx →
        (removeCmd w extID).err = none ∧
        (∀ err, SaveIndex w paths (RemoveFromIndex extID idx) = some err →
          .warningSaveIndex err ∈ (removeCmd w extID).out))) := by
  constructor
  · intro found hf hi
    constructor
    · intro err hl
      simp [installCmd, hp, hf, hi, hl]
    · intro idx hl
      refine ⟨by simp [installCmd, hp, hf, hi, hl], ?_, ?_⟩
      · intro err hu
        simp [installCmd, hp, hf, hi, hl, hu]
      · intro idx2 err hu hs
        simp [installCmd, hp, hf, hi, hl, hu, hs]
  · intro hr
    constructor
    · intro err hl
      simp [removeCmd, hp, hr, hl]
    · intro idx hl
      refine ⟨by simp [removeCmd, hp, hr, hl], ?_⟩
      intro err hs
      simp [removeCmd, hp, hr, hl, hs]

/-- C5 (amended), at an input: `foo` is installed and then removed on a full
disk with no `index.json`; both commands succeed and print the warning that
the index could not be saved. -/
theorem commands_index_failures_witness :
    (installCmd (sampleCmdWorld .notExist true) "foo" none).err = none ∧
    Printed.warningSaveIndex (.writeIndex "no space left on device") ∈
      (installCmd (sampleCmdWorld .notExist true) "foo" none).out ∧
    (removeCmd (sampleCmdWorld .notExist true) "foo").err = none ∧
    Printed.warningSaveIndex (.writeIndex "no space left on device") ∈
      (removeCmd (sampleCmdWorld .notExist true) "foo").out :=
  have h := commands_index_failures (sampleCmdWorld .notExist true) "foo" none samplePaths rfl
  have hi := (h.1 (sampleInfo "foo") rfl rfl).2 newEmptyIndex rfl
  have hr := (h.2 rfl).2 newEmptyIndex rfl
  ⟨hi.1, hi.2.2 _ _ rfl rfl, hr.1, hr.2 _ rfl⟩

/-- C11 (as stated, refuted): two bytes of three announced are written without
error into a file that `os.Remove` is then refused to take away; the attempt
returns the incomplete-download error and the partial file is still there. -/
theorem downloadOnce_incomplete_counterexample :
    twoOfThreeStuck.get = .ok { StatusCode := 200, ContentLength := 3 } ∧
      twoOfThreeStuck.create = none ∧ twoOfThreeStuck.copy = ([1, 2], none) ∧
      downloadOnce twoOfThreeStuck none = (some (.incomplete 2 3), some [1, 2]) :=
  ⟨rfl, rfl, rfl, by decide⟩

/-- C11 (amended): for an attempt whose response has status 200 and an announced
content length `L > 0`: if `downloadOnce` succeeds, the number of bytes
written is `L` (and the destination file holds exactly those bytes); if the
file was created and the copy ends without error but the number of bytes
written is not `L`, the attempt returns the "incomplete download" error
after calling `os.Remove`, whose result it ignores: the destination file is
gone afterwards when that call succeeds, whatever was there before, and holds
the bytes written when it is refused. -/
theorem downloadOnce_content_length (a : AttemptWorld) (file : Option (List Nat))
    (resp : Response) (hget : a.get = .ok resp) (hstatus : resp.StatusCode = 200)
    (hlen : resp.ContentLength > 0) :
    ((downloadOnce a file).1 = none →
      (a.copy.1.length : Int) = resp.ContentLength ∧
      (downloadOnce a file).2 = some a.copy.1) ∧
    (a.create = none → a.copy.2 = none → (a.copy.1.length : Int) ≠ resp.ContentLength →
      (downloadOnce a file).1 = some (.incomplete a.copy.1.length resp.ContentLength) ∧
      (a.remove = none → (downloadOnce a file).2 = none) ∧
      (a.remove ≠ none → (downloadOnce a file).2 = some a.copy.1)) := by
  unfold downloadOnce
  rw [hget]
  simp only [hstatus, ne_eq, not_true_eq_false, if_false]
  constructor
  · intro h
    cases hc : a.create with
    | some err => rw [hc] at h; simp at h
    | none =>
      rw [hc] at h
      simp only at h ⊢
      cases hcp : a.copy.2 with
      | some err => rw [hcp] at h; simp at h
      | none =>
        rw [hcp] at h
        simp only at h ⊢
        by_cases hw : (a.copy.1.length : Int) = resp.ContentLength
        · simp [hw]
        · simp [hlen, hw] at h
  · intro hc hcp hw
    rw [hc]
    simp only
    rw [hcp]
    simp only [hlen, hw, not_false_eq_true, and_self, if_true, true_and]
    constructor
    · intro hr
      simp [afterRemove, hr]
    · intro hr
      unfold afterRemove
      cases hrm : a.remove with
      | none => exact absurd hrm hr
      | some e => rfl

/-- C11 (amended), at two inputs: two bytes of three announced, over a file that
was there before, give the incomplete-download error and no file when the
file can be removed; three bytes of three give success and a file of three
bytes. -/
theorem downloadOnce_content_length_witness :
    ((downloadOnce twoOfThree (some [9])).1 = some (.incomplete 2 3) ∧
      (downloadOnce twoOfThree (some [9])).2 = none) ∧
    ((downloadOnce threeBytes none).1 = none →
      ((threeBytes.copy.1.length : Int) = 3 ∧
        (downloadOnce threeBytes none).2 = some threeBytes.copy.1)) ∧
    (downloadOnce threeBytes none).1 = none :=
  have h := (downloadOnce_content_length twoOfThree (some [9])
    { StatusCode := 200, ContentLength := 3 } rfl rfl (by decide)).2 rfl rfl (by decide)
  ⟨⟨h.1, h.2.1 rfl⟩,
    (downloadOnce_content_length threeBytes none { StatusCode := 200, ContentLength := 3 }
      rfl rfl (by decide)).1,
    by decide⟩

end ZedExt
